import Mathlib

/-!
# Caching strategies of `go_redis_cache_demo.go`

A shallow embedding of the five strategy functions of the demo
(`getUserByID`, `updateUserWriteThrough`, `writeBehindBuffer`,
`flushWriteBehind`, `refreshAheadHotKeys`) together with the three
collaborators they call: `fmt.Sprintf("%d")`, `encoding/json` on the `User`
record, and the Redis commands `GET`, `SET`, `DEL`, `KEYS`, `TTL`.

Conventions.
* A Go `string` or `[]byte` is a list of bytes, valid UTF-8 or not. A byte is a
  natural number below 256; the functions are total on lists of naturals and
  treat a larger number like a byte that begins no character.
* `int64` identifiers are integers; the predicate `InInt64` carves out the
  machine range where it matters (JSON decoding checks it).
* The cache is an association list read with first-match lookup; `SET` and
  `DEL` drop every older binding of the key.
* `KEYS` promises no order: the world carries, for each `KEYS` to come, a
  list of indices that shuffles the enumeration.
* A cache command can fail: the world carries a schedule of upcoming outcomes
  (`true` = the next command fails). A failed command has no effect on the
  store and returns an error with the zero value as its result.
* Every command issued is appended to a trace, so that "performs no write"
  can be stated.
* Time only passes through `elapse`; consecutive calls run back to back.
* Lifetimes are whole seconds, as the `TTL` command reports them; durations
  are `int64` nanoseconds and the product computed by the client wraps.
-/

namespace CacheDemo

/-! ## Bytes, records and constants -/

/-- A Go `string` or `[]byte`. -/
abbrev Bytes := List Nat

/-- The code of an ASCII character. -/
def ch (c : Char) : Nat := c.toNat

/-- The bytes `utf8.EncodeRune` writes for a code point: one to four bytes, and
the encoding of U+FFFD for a surrogate or a value past U+10FFFF. -/
def encodeRune (r : Nat) : Bytes :=
  if r < 0x80 then [r]
  else if r < 0x800 then [0xC0 + r / 64, 0x80 + r % 64]
  else if (0xD800 ≤ r ∧ r < 0xE000) ∨ 0x10FFFF < r then [0xEF, 0xBF, 0xBD]
  else if r < 0x10000 then [0xE0 + r / 4096, 0x80 + r / 64 % 64, 0x80 + r % 64]
  else [0xF0 + r / 262144, 0x80 + r / 4096 % 64, 0x80 + r / 64 % 64, 0x80 + r % 64]

/-- UTF-8 encoding of a list of characters. -/
def utf8 : List Char → Bytes
  | [] => []
  | c :: cs => encodeRune c.toNat ++ utf8 cs

/-- The bytes of a string literal of the program. -/
def str (s : String) : Bytes := utf8 s.data

/-- A continuation byte, `10xxxxxx`. -/
def isCont (b : Nat) : Bool := decide (0x80 ≤ b) && decide (b ≤ 0xBF)

/-- The call `utf8.DecodeRune(p)`: the code point at the head of `p` and the
number of bytes it takes. Bytes that begin no well-formed encoding (stray
continuation bytes, overlong forms, surrogates, values past U+10FFFF,
truncated sequences) give U+FFFD with width 1; the empty input gives width 0. -/
def decodeRune : Bytes → Nat × Nat
  | [] => (0xFFFD, 0)
  | b0 :: rest =>
    if b0 < 0x80 then (b0, 1)
    else if 0xC2 ≤ b0 ∧ b0 ≤ 0xDF then
      match rest with
      | b1 :: _ =>
        if isCont b1 then ((b0 - 0xC0) * 64 + (b1 - 0x80), 2) else (0xFFFD, 1)
      | [] => (0xFFFD, 1)
    else if 0xE0 ≤ b0 ∧ b0 ≤ 0xEF then
      match rest with
      | b1 :: b2 :: _ =>
        if (if b0 = 0xE0 then 0xA0 else 0x80) ≤ b1 ∧ b1 ≤ (if b0 = 0xED then 0x9F else 0xBF) ∧
            isCont b2 then
          ((b0 - 0xE0) * 4096 + (b1 - 0x80) * 64 + (b2 - 0x80), 3)
        else (0xFFFD, 1)
      | _ => (0xFFFD, 1)
    else if 0xF0 ≤ b0 ∧ b0 ≤ 0xF4 then
      match rest with
      | b1 :: b2 :: b3 :: _ =>
        if (if b0 = 0xF0 then 0x90 else 0x80) ≤ b1 ∧ b1 ≤ (if b0 = 0xF4 then 0x8F else 0xBF) ∧
            isCont b2 ∧ isCont b3 then
          ((b0 - 0xF0) * 262144 + (b1 - 0x80) * 4096 + (b2 - 0x80) * 64 + (b3 - 0x80), 4)
        else (0xFFFD, 1)
      | _ => (0xFFFD, 1)
    else (0xFFFD, 1)

/-- The scan of `utf8.Valid`; `skip` counts the bytes still to pass of the
character being read. -/
def validAux : Nat → Bytes → Bool
  | _, [] => true
  | skip + 1, _ :: rest => validAux skip rest
  | 0, b :: rest =>
    if b < 0x80 then validAux 0 rest
    else if (decodeRune (b :: rest)).2 = 1 then false
    else validAux ((decodeRune (b :: rest)).2 - 1) rest

/-- The call `utf8.Valid(s)`: the bytes are well-formed UTF-8. -/
def validUTF8 (s : Bytes) : Bool := validAux 0 s

/-- The Go record `User` with its two JSON fields `id` and `name`. -/
structure User where
  ID : Int
  Name : Bytes
deriving DecidableEq, Repr

/-- The zero value of `User`, what `var u User` declares. -/
def User.zero : User := ⟨0, []⟩

/-- The range of a Go `int64`. -/
def InInt64 (i : Int) : Prop := -9223372036854775808 ≤ i ∧ i ≤ 9223372036854775807

instance (i : Int) : Decidable (InInt64 i) := by
  unfold InInt64; infer_instance

/-- A Go `time.Duration`: a count of nanoseconds. -/
abbrev Duration := Int

/-- Two's-complement wrap-around of an integer into the `int64` range: the value
Go keeps when `int64` arithmetic overflows. -/
def wrapInt64 (i : Int) : Int :=
  (i + 9223372036854775808) % 18446744073709551616 - 9223372036854775808

/-- The constant `time.Second`. -/
def second : Duration := 1000000000

/-- The constant `time.Minute`. -/
def minute : Duration := 60 * second

/-! ## `fmt.Sprintf("%d", id)` -/

/-- Decimal digits of `n`, most significant first, pushed in front of `acc`. -/
def formatNatAux : Nat → Nat → Bytes → Bytes
  | 0, _, acc => acc
  | fuel + 1, n, acc =>
    if n < 10 then (ch '0' + n) :: acc
    else formatNatAux fuel (n / 10) ((ch '0' + n % 10) :: acc)

/-- Decimal rendering of a natural number. -/
def formatNat (n : Nat) : Bytes := formatNatAux (n + 1) n []

/-- Decimal rendering of an integer, as the verb `%d` and `strconv.AppendInt`
produce it: a minus sign for negative numbers, no padding. -/
def formatInt (i : Int) : Bytes :=
  if i < 0 then ch '-' :: formatNat i.natAbs else formatNat i.natAbs

/-- Key of the live cache entry: `fmt.Sprintf("user:%d", id)`. -/
def userKey (id : Int) : Bytes := str "user:" ++ formatInt id

/-- Key of the write-behind record: `fmt.Sprintf("buffer:user:%d", id)`. -/
def bufferKey (id : Int) : Bytes := str "buffer:user:" ++ formatInt id

/-! ## `json.Marshal` on a `User` -/

/-- The digit table `hex` of the encoder, `"0123456789abcdef"`. -/
def hexDigit (n : Nat) : Nat := (str "0123456789abcdef").getD n (ch '0')

/-- The table `htmlSafeSet`: the ASCII characters copied unescaped. -/
def htmlSafe (b : Nat) : Bool :=
  decide (0x20 ≤ b) && decide (b < 0x80) &&
    !(b == ch '"' || b == ch '&' || b == ch '<' || b == ch '>' || b == ch '\\')

/-- Encoding of one ASCII byte inside a JSON string literal (`appendString`
with HTML escaping on, the default of `json.Marshal`). -/
def escapeByte (b : Nat) : Bytes :=
  if htmlSafe b then [b]
  else if b = ch '\\' ∨ b = ch '"' then [ch '\\', b]
  else if b = 8 then [ch '\\', ch 'b']
  else if b = 12 then [ch '\\', ch 'f']
  else if b = ch '\n' then [ch '\\', ch 'n']
  else if b = ch '\r' then [ch '\\', ch 'r']
  else if b = ch '\t' then [ch '\\', ch 't']
  else [ch '\\', ch 'u', ch '0', ch '0', hexDigit (b / 16), hexDigit (b % 16)]

/-- Body of a JSON string literal, without the surrounding quotes (the loop of
`appendString`); `skip` counts the bytes still to pass of the character just
written. A byte that begins no well-formed character is written as the
escape of U+FFFD; U+2028 and U+2029 are escaped; every other character is
copied. -/
def escapeAux : Nat → Bytes → Bytes
  | _, [] => []
  | skip + 1, _ :: rest => escapeAux skip rest
  | 0, b :: rest =>
    if b < 0x80 then escapeByte b ++ escapeAux 0 rest
    else if decodeRune (b :: rest) = (0xFFFD, 1) then
      [ch '\\', ch 'u', ch 'f', ch 'f', ch 'f', ch 'd'] ++ escapeAux 0 rest
    else if (decodeRune (b :: rest)).1 = 0x2028 ∨ (decodeRune (b :: rest)).1 = 0x2029 then
      [ch '\\', ch 'u', ch '2', ch '0', ch '2', hexDigit ((decodeRune (b :: rest)).1 % 16)] ++
        escapeAux ((decodeRune (b :: rest)).2 - 1) rest
    else
      (b :: rest).take (decodeRune (b :: rest)).2 ++
        escapeAux ((decodeRune (b :: rest)).2 - 1) rest

/-- The string literal body for a Go string. -/
def escapeString (s : Bytes) : Bytes := escapeAux 0 s

/-- The bytes `json.Marshal` produces for a `User`:
`{"id":<decimal>,"name":"<escaped>"}`. -/
def jsonMarshal (u : User) : Bytes :=
  str "\x7b\"id\":" ++ formatInt u.ID ++ str ",\"name\":\"" ++ escapeString u.Name ++ str "\"\x7d"

/-! ## `json.Unmarshal` into a `User`

The decoder first checks that the bytes are one JSON value (objects, arrays,
strings with escapes, numbers, literals, whitespace, nesting limit), then
assigns the members of a top-level object to the fields `id` and `name`,
matching keys without regard to case, skipping unknown keys and `null`s,
and carrying on after a value of the wrong kind. -/

/-- Why a decode failed: the input is not valid JSON (`*json.SyntaxError`), or
a value does not fit the Go field it is assigned to
(`*json.UnmarshalTypeError`). -/
inductive JsonError where
  | syntaxError
  | typeError
deriving DecidableEq, Repr

/-- What the decoder needs to know of a JSON value: its kind, and the literal
of a number or the decoded bytes of a string. -/
inductive Tok where
  | null
  | bool (b : Bool)
  | number (lit : Bytes)
  | string (s : Bytes)
  | array
  | object
deriving DecidableEq, Repr

/-- JSON insignificant whitespace (`isSpace` of the scanner). -/
def isSpace (c : Nat) : Bool := c == ch ' ' || c == ch '\t' || c == ch '\r' || c == ch '\n'

/-- Drop leading whitespace. -/
def skipWs : Bytes → Bytes
  | [] => []
  | c :: cs => if isSpace c then skipWs cs else c :: cs

/-- Value of a decimal digit. -/
def digitVal (c : Nat) : Option Nat :=
  if ch '0' ≤ c ∧ c ≤ ch '9' then some (c - ch '0') else none

/-- Value of a hexadecimal digit, either case. -/
def hexVal (c : Nat) : Option Nat :=
  if ch '0' ≤ c ∧ c ≤ ch '9' then some (c - ch '0')
  else if ch 'a' ≤ c ∧ c ≤ ch 'f' then some (c - ch 'a' + 10)
  else if ch 'A' ≤ c ∧ c ≤ ch 'F' then some (c - ch 'A' + 10)
  else none

/-- The four hex digits of a `\u` escape (`getu4`). -/
def hex4 (a b c d : Nat) : Option Nat :=
  match hexVal a, hexVal b, hexVal c, hexVal d with
  | some x, some y, some z, some w => some (((x * 16 + y) * 16 + z) * 16 + w)
  | _, _, _, _ => none

/-- The byte a one-letter escape stands for. -/
def unescapeSimple (e : Nat) : Option Nat :=
  if e = ch '"' then some (ch '"')
  else if e = ch '\\' then some (ch '\\')
  else if e = ch '/' then some (ch '/')
  else if e = ch 'b' then some 8
  else if e = ch 'f' then some 12
  else if e = ch 'n' then some (ch '\n')
  else if e = ch 'r' then some (ch '\r')
  else if e = ch 't' then some (ch '\t')
  else none

/-- A second `\uXXXX` escape that completes the surrogate pair opened by the
high surrogate `hi`: the combined code point and the input after it. -/
def lowSurrogate (hi : Nat) (cs : Bytes) : Option (Nat × Bytes) :=
  match cs with
  | b :: u :: h1 :: h2 :: h3 :: h4 :: rest =>
    if b = ch '\\' ∧ u = ch 'u' ∧ hi < 0xDC00 then
      match hex4 h1 h2 h3 h4 with
      | some lo =>
        if 0xDC00 ≤ lo ∧ lo < 0xE000 then
          some ((hi - 0xD800) * 1024 + (lo - 0xDC00) + 0x10000, rest)
        else none
      | none => none
    else none
  | _ => none

/-- Read a string literal whose opening quote has been consumed: the decoded
bytes and the input after the closing quote. Control characters and malformed
escapes are syntax errors; a surrogate escape without its partner, and a byte
that begins no well-formed character, decode to U+FFFD (`unquote`). The
argument `fuel` bounds the number of steps; each step reads at least one
byte, so the length of the input is always enough. -/
def scanString : Nat → Bytes → Option (Bytes × Bytes)
  | 0, _ => none
  | _ + 1, [] => none
  | fuel + 1, c :: cs =>
    if c = ch '"' then some ([], cs)
    else if c = ch '\\' then
      match cs with
      | [] => none
      | e :: cs1 =>
        if e = ch 'u' then
          match cs1 with
          | h1 :: h2 :: h3 :: h4 :: cs2 =>
            match hex4 h1 h2 h3 h4 with
            | none => none
            | some r =>
              if 0xD800 ≤ r ∧ r < 0xE000 then
                match lowSurrogate r cs2 with
                | some (full, cs3) =>
                  (scanString fuel cs3).map fun p => (encodeRune full ++ p.1, p.2)
                | none => (scanString fuel cs2).map fun p => (encodeRune 0xFFFD ++ p.1, p.2)
              else (scanString fuel cs2).map fun p => (encodeRune r ++ p.1, p.2)
          | _ => none
        else
          match unescapeSimple e with
          | none => none
          | some d => (scanString fuel cs1).map fun p => (d :: p.1, p.2)
    else if c < 0x20 then none
    else if c < 0x80 then (scanString fuel cs).map fun p => (c :: p.1, p.2)
    else
      (scanString fuel ((c :: cs).drop (decodeRune (c :: cs)).2)).map fun p =>
        (encodeRune (decodeRune (c :: cs)).1 ++ p.1, p.2)

/-- Split off the longest prefix of decimal digits. -/
def spanDigits : Bytes → Bytes × Bytes
  | [] => ([], [])
  | c :: cs =>
    if (digitVal c).isSome then ((spanDigits cs).1.cons c, (spanDigits cs).2)
    else ([], c :: cs)

/-- Optional fraction part of a number literal. -/
def scanFraction (cs : Bytes) : Option (Bytes × Bytes) :=
  match cs with
  | c :: r =>
    if c = ch '.' then
      match spanDigits r with
      | ([], _) => none
      | (ds, rest) => some (c :: ds, rest)
    else some ([], cs)
  | [] => some ([], [])

/-- Optional exponent part of a number literal. -/
def scanExponent (cs : Bytes) : Option (Bytes × Bytes) :=
  match cs with
  | c :: r =>
    if c = ch 'e' ∨ c = ch 'E' then
      match r with
      | s :: r1 =>
        if s = ch '+' ∨ s = ch '-' then
          match spanDigits r1 with
          | ([], _) => none
          | (ds, rest) => some (c :: s :: ds, rest)
        else
          match spanDigits r with
          | ([], _) => none
          | (ds, rest) => some (c :: ds, rest)
      | [] => none
    else some ([], cs)
  | [] => some ([], [])

/-- Integer part of a number literal, after the optional minus sign: a single
`0`, or a nonzero digit followed by digits. -/
def scanIntPart (cs : Bytes) : Option (Bytes × Bytes) :=
  match cs with
  | c :: r =>
    if c = ch '0' then some ([c], r)
    else if (digitVal c).isSome then some (c :: (spanDigits r).1, (spanDigits r).2)
    else none
  | [] => none

/-- Number literal at the head of the input, following the JSON grammar. -/
def scanNumber (cs : Bytes) : Option (Bytes × Bytes) :=
  let sign : Bytes := match cs with
    | c :: _ => if c = ch '-' then [c] else []
    | [] => []
  match scanIntPart (cs.drop sign.length) with
  | none => none
  | some (ip, r1) =>
    match scanFraction r1 with
    | none => none
    | some (fp, r2) =>
      match scanExponent r2 with
      | none => none
      | some (ep, r3) => some (sign ++ ip ++ fp ++ ep, r3)

/-- One of the literals `true`, `false`, `null` at the head of the input. -/
def scanLiteral (cs : Bytes) : Option (Tok × Bytes) :=
  if (str "true").isPrefixOf cs then some (Tok.bool true, cs.drop 4)
  else if (str "false").isPrefixOf cs then some (Tok.bool false, cs.drop 5)
  else if (str "null").isPrefixOf cs then some (Tok.null, cs.drop 4)
  else none

/-- The decoder's limit on nested arrays and objects (`maxNestingDepth`). -/
def maxNestingDepth : Nat := 10000

mutual
/-- Read one JSON value (leading whitespace allowed) at nesting depth `depth`. -/
def scanValue : Nat → Nat → Bytes → Option (Tok × Bytes)
  | 0, _, _ => none
  | fuel + 1, depth, cs =>
    match skipWs cs with
    | [] => none
    | c :: r =>
      if c = ch '{' then
        if maxNestingDepth ≤ depth then none
        else
          match skipWs r with
          | [] => none
          | d :: r1 =>
            if d = ch '}' then some (Tok.object, r1)
            else (scanMembers fuel (depth + 1) (d :: r1)).map fun p => (Tok.object, p.2)
      else if c = ch '[' then
        if maxNestingDepth ≤ depth then none
        else
          match skipWs r with
          | [] => none
          | d :: r1 =>
            if d = ch ']' then some (Tok.array, r1)
            else scanElems fuel (depth + 1) (d :: r1)
      else if c = ch '"' then
        (scanString r.length r).map fun p => (Tok.string p.1, p.2)
      else if c = ch '-' ∨ (digitVal c).isSome then
        (scanNumber (c :: r)).map fun p => (Tok.number p.1, p.2)
      else scanLiteral (c :: r)
/-- Read the members of an object up to and including the closing brace; the
input starts at the first key. Members are returned in input order. -/
def scanMembers : Nat → Nat → Bytes → Option (List (Bytes × Tok) × Bytes)
  | 0, _, _ => none
  | fuel + 1, depth, cs =>
    match cs with
    | [] => none
    | q :: r =>
      if q = ch '"' then
        match scanString r.length r with
        | none => none
        | some (key, r1) =>
          match skipWs r1 with
          | [] => none
          | colon :: r2 =>
            if colon = ch ':' then
              match scanValue fuel depth r2 with
              | none => none
              | some (tok, r3) =>
                match skipWs r3 with
                | [] => none
                | sep :: r4 =>
                  if sep = ch ',' then
                    (scanMembers fuel depth (skipWs r4)).map fun p => ((key, tok) :: p.1, p.2)
                  else if sep = ch '}' then some ([(key, tok)], r4)
                  else none
            else none
      else none
/-- Read the elements of an array up to and including the closing bracket. -/
def scanElems : Nat → Nat → Bytes → Option (Tok × Bytes)
  | 0, _, _ => none
  | fuel + 1, depth, cs =>
    match scanValue fuel depth cs with
    | none => none
    | some (_, r1) =>
      match skipWs r1 with
      | [] => none
      | sep :: r2 =>
        if sep = ch ',' then scanElems fuel depth r2
        else if sep = ch ']' then some (Tok.array, r2)
        else none
end

/-- A whole JSON document, as far as decoding into a `User` looks at it. -/
inductive Document where
  | object (members : List (Bytes × Tok))
  | other (tok : Tok)
deriving DecidableEq, Repr

/-- Parse a complete document: one value, surrounded by optional whitespace
(`checkValid`). `none` is a syntax error. The fuel handed to the scanners is
two units per byte of the input: of two nested calls of a scanner, one
comes after a byte has been read. -/
def parseDocument (cs : Bytes) : Option Document :=
  let fuel := 2 * cs.length + 2
  match skipWs cs with
  | [] => none
  | c :: r =>
    if c = ch '{' then
      match skipWs r with
      | [] => none
      | d :: r1 =>
        if d = ch '}' then
          if skipWs r1 = [] then some (Document.object []) else none
        else
          match scanMembers fuel 1 (d :: r1) with
          | none => none
          | some (ms, rest) => if skipWs rest = [] then some (Document.object ms) else none
    else
      match scanValue fuel 0 (c :: r) with
      | none => none
      | some (tok, rest) => if skipWs rest = [] then some (Document.other tok) else none

/-- Value of a string of decimal digits; `none` if empty or not all digits. -/
def parseDigits : Bytes → Option Nat
  | [] => none
  | c :: cs =>
    (c :: cs).foldl (fun acc d =>
      match acc, digitVal d with
      | some a, some v => some (10 * a + v)
      | _, _ => none) (some 0)

/-- The call `strconv.ParseInt(lit, 10, 64)` on a JSON number literal: the
literal must be an optionally signed digit string within the `int64` range. -/
def parseInt64 (lit : Bytes) : Option Int :=
  match lit with
  | [] => none
  | c :: r =>
    if c = ch '-' then
      match parseDigits r with
      | some n => if n ≤ 9223372036854775808 then some (-(n : Int)) else none
      | none => none
    else
      match parseDigits (c :: r) with
      | some n => if n ≤ 9223372036854775807 then some (n : Int) else none
      | none => none

/-- ASCII lower-casing of one byte. -/
def lowerAscii (c : Nat) : Nat :=
  if ch 'A' ≤ c ∧ c ≤ ch 'Z' then c + 32 else c

/-- Case-insensitive match of an object key against a field name: both field
names of `User` consist of letters without special folding. -/
def foldEq (key field : Bytes) : Bool := key.map lowerAscii == field

/-- Assign one object member to the record. A `null` leaves the field as it
is; a value of the wrong kind, or a number that is not an `int64`, is a type
error and leaves the field as it is; members that match no field are skipped. -/
def assignMember (u : User) (m : Bytes × Tok) : User × Option JsonError :=
  if foldEq m.1 (str "id") then
    match m.2 with
    | Tok.null => (u, none)
    | Tok.number lit =>
      match parseInt64 lit with
      | some i => ({ u with ID := i }, none)
      | none => (u, some JsonError.typeError)
    | _ => (u, some JsonError.typeError)
  else if foldEq m.1 (str "name") then
    match m.2 with
    | Tok.null => (u, none)
    | Tok.string s => ({ u with Name := s }, none)
    | _ => (u, some JsonError.typeError)
  else (u, none)

/-- Assign the members in order; decoding goes on after a type error and the
first error is the one reported (`saveError`). -/
def assignMembers : User → List (Bytes × Tok) → User × Option JsonError
  | u, [] => (u, none)
  | u, m :: ms =>
    let r1 := assignMember u m
    let r2 := assignMembers r1.1 ms
    (r2.1, r1.2 <|> r2.2)

/-- The call `json.Unmarshal(data, &u)` with `u` freshly declared: the record
after the call and the error returned. Invalid JSON leaves the record at its
zero value; a top-level `null` is accepted and changes nothing; any other
non-object is a type error. -/
def jsonUnmarshal (data : Bytes) : User × Option JsonError :=
  match parseDocument data with
  | none => (User.zero, some JsonError.syntaxError)
  | some (Document.object ms) => assignMembers User.zero ms
  | some (Document.other Tok.null) => (User.zero, none)
  | some (Document.other _) => (User.zero, some JsonError.typeError)

/-! ## The Redis server behind the client `rdb` -/

/-- A cache entry: its bytes and its remaining lifetime in whole seconds, as
the `TTL` command reports it; `none` is an entry without expiry. -/
structure Entry where
  value : Bytes
  ttl : Option Nat
deriving DecidableEq, Repr

/-- The key space: an association list read with first-match lookup. -/
abbrev Store := List (Bytes × Entry)

/-- The entry bound to a key, if any. -/
def Store.lookup (k : Bytes) : Store → Option Entry
  | [] => none
  | p :: st => if p.1 = k then some p.2 else Store.lookup k st

/-- Remove every binding of a key. -/
def Store.erase (k : Bytes) : Store → Store
  | [] => []
  | p :: st => if p.1 = k then Store.erase k st else p :: Store.erase k st

/-- Bind a key, replacing what was bound to it. -/
def Store.insert (k : Bytes) (e : Entry) (st : Store) : Store := (k, e) :: Store.erase k st

/-- The visible bindings: for each key its first binding only. -/
def Store.canon : Store → Store
  | [] => []
  | p :: st => p :: Store.erase p.1 (Store.canon st)

/-- Glob matching of a key against a pattern with the wildcards `*` (any run of
characters) and `?` (any one character); every other pattern character
stands for itself. -/
def globMatch : Bytes → Bytes → Bool
  | [], s => s.isEmpty
  | c :: p, s =>
    if c = ch '*' then s.tails.any fun t => globMatch p t
    else
      match s with
      | [] => false
      | d :: s1 => (c = ch '?' || d = c) && globMatch p s1

/-- The keys that match a pattern, each once, in the order of the list. -/
def Store.keys (pattern : Bytes) (st : Store) : List Bytes :=
  ((Store.canon st).map Prod.fst).filter fun k => globMatch pattern k

/-- Reorder a list of keys after a list of indices: the first index picks
(modulo the length) the key that comes first, the next index picks among
the keys that are left, and so on; the keys left when the indices run out
keep their order. Every order of the keys is the result of some indices. -/
def shuffle : List Nat → List Bytes → List Bytes
  | [], l => l
  | _ :: _, [] => []
  | i :: is, a :: l =>
    ((a :: l).drop (i % (l.length + 1))).headD a ::
      shuffle is ((a :: l).take (i % (l.length + 1)) ++ (a :: l).drop (i % (l.length + 1) + 1))

/-- What is left of an entry after `s` seconds, `none` once it has expired. -/
def Entry.age (s : Nat) (e : Entry) : Option Entry :=
  match e.ttl with
  | none => some e
  | some t => if t < s then none else some { e with ttl := some (t - s) }

/-- The key space after `s` seconds without commands. -/
def Store.elapse (s : Nat) (st : Store) : Store :=
  (Store.canon st).filterMap fun p => (Entry.age s p.2).map fun e => (p.1, e)

/-- Lifetime the server records for `SET` with a Go expiration: whole seconds
for a positive duration, no expiry otherwise (the demo passes whole minutes). -/
def expiryOf (expiration : Duration) : Option Nat :=
  if 0 < expiration then some (expiration / second).toNat else none

/-- A command sent to the server. -/
inductive Cmd where
  | get (key : Bytes)
  | set (key value : Bytes) (expiration : Duration)
  | del (key : Bytes)
  | keys (pattern : Bytes)
  | ttl (key : Bytes)
deriving DecidableEq, Repr

/-- The error of a command: `redis.Nil` (no such key), or the command did not
go through. -/
inductive RedisError where
  | nil
  | unavailable
deriving DecidableEq, Repr

/-- The server as the program sees it: the key space, the outcomes of the
commands to come (`true`: the command fails; past the end of the list every
command goes through), the shuffles of the `KEYS` enumerations to come (past
the end of the list the enumeration is not shuffled), and the commands issued
so far. -/
structure World where
  store : Store
  faults : List Bool
  scans : List (List Nat)
  trace : List Cmd
deriving DecidableEq, Repr

/-- Does the next command fail? -/
def World.nextFails (w : World) : Bool := w.faults.headD false

/-- Account for one command: it joins the trace and uses up one outcome. -/
def World.issue (c : Cmd) (w : World) : World :=
  { w with faults := w.faults.tail, trace := w.trace ++ [c] }

/-- Every command to come goes through. -/
def World.healthy (w : World) : Prop := ∀ b ∈ w.faults, b = false

instance (w : World) : Decidable w.healthy := by
  unfold World.healthy; infer_instance

/-- Let `s` seconds pass. -/
def World.elapse (s : Nat) (w : World) : World := { w with store := w.store.elapse s }

/-- The call `rdb.Get(ctx, key).Result()`. -/
def rdbGet (key : Bytes) (w : World) : World × Bytes × Option RedisError :=
  let w1 := w.issue (Cmd.get key)
  if w.nextFails then (w1, [], some RedisError.unavailable)
  else
    match w.store.lookup key with
    | some e => (w1, e.value, none)
    | none => (w1, [], some RedisError.nil)

/-- The call `rdb.Set(ctx, key, value, expiration).Err()`. -/
def rdbSet (key value : Bytes) (expiration : Duration) (w : World) :
    World × Option RedisError :=
  let w1 := w.issue (Cmd.set key value expiration)
  if w.nextFails then (w1, some RedisError.unavailable)
  else ({ w1 with store := w.store.insert key ⟨value, expiryOf expiration⟩ }, none)

/-- The call `rdb.Del(ctx, key)`. -/
def rdbDel (key : Bytes) (w : World) : World × Option RedisError :=
  let w1 := w.issue (Cmd.del key)
  if w.nextFails then (w1, some RedisError.unavailable)
  else ({ w1 with store := w.store.erase key }, none)

/-- The call `rdb.Keys(ctx, pattern).Result()`: the matching keys in the order
the server happens to enumerate them. -/
def rdbKeys (pattern : Bytes) (w : World) : World × List Bytes × Option RedisError :=
  let w1 := { w.issue (Cmd.keys pattern) with scans := w.scans.tail }
  if w.nextFails then (w1, [], some RedisError.unavailable)
  else (w1, shuffle (w.scans.headD []) (w.store.keys pattern), none)

/-- The call `rdb.TTL(ctx, key).Result()`: the remaining lifetime as a
duration, `-1` nanosecond for an entry without expiry and `-2` nanoseconds
for an absent key. The client multiplies the seconds of the reply by
`time.Second` in `int64` arithmetic. -/
def rdbTTL (key : Bytes) (w : World) : World × Duration × Option RedisError :=
  let w1 := w.issue (Cmd.ttl key)
  if w.nextFails then (w1, 0, some RedisError.unavailable)
  else
    match w.store.lookup key with
    | none => (w1, -2, none)
    | some e =>
      match e.ttl with
      | none => (w1, -1, none)
      | some t => (w1, wrapInt64 ((t : Int) * second), none)

/-! ## The program -/

/-- A Go `error` value as far as the program produces one. -/
inductive GoError where
  | redis (e : RedisError)
  | json (e : JsonError)
deriving DecidableEq, Repr

/-- Cache-aside read, `getUserByID`. -/
def getUserByID (id : Int) (w : World) : World × User × Option GoError :=
  let key := userKey id
  let r := rdbGet key w
  let hit : Option User :=
    if r.2.2 = none then
      let d := jsonUnmarshal r.2.1
      if d.2 = none then some d.1 else none
    else none
  match hit with
  | some u => (r.1, u, none)
  | none =>
    -- Simulate DB fetch
    let u : User := ⟨id, str "John Doe"⟩
    let buf := jsonMarshal u
    let s := rdbSet key buf (10 * minute) r.1
    (s.1, u, none)

/-- Write-through update, `updateUserWriteThrough`. -/
def updateUserWriteThrough (id : Int) (name : Bytes) (w : World) : World × Option GoError :=
  let u : User := ⟨id, name⟩
  let buf := jsonMarshal u
  let key := userKey id
  let s := rdbSet key buf (10 * minute) w
  (s.1, s.2.map GoError.redis)

/-- Buffered write, `writeBehindBuffer`. -/
def writeBehindBuffer (user : User) (w : World) : World :=
  let key := bufferKey user.ID
  let buf := jsonMarshal user
  (rdbSet key buf (5 * minute) w).1

/-- One iteration of the flush loop: read, decode, print, delete. Returns the
record handed to `Printf`, the stand-in for the write to the database. -/
def flushOne (key : Bytes) (w : World) : World × User :=
  let g := rdbGet key w
  let u := (jsonUnmarshal g.2.1).1
  let d := rdbDel key g.1
  (d.1, u)

/-- The loop of `flushWriteBehind` over the enumerated keys; `out` collects,
for each iteration, its key and the record it printed. -/
def flushLoop : List Bytes → World → List (Bytes × User) → World × List (Bytes × User)
  | [], w, out => (w, out)
  | key :: keys, w, out =>
    let r := flushOne key w
    flushLoop keys r.1 (out ++ [(key, r.2)])

/-- The commands one pass of the flush loop over a list of keys issues: for
each key its `GET`, then its `DEL`. -/
def flushCmds : List Bytes → List Cmd
  | [] => []
  | key :: keys => Cmd.get key :: Cmd.del key :: flushCmds keys

/-- Flush of the write-behind buffer, `flushWriteBehind`. -/
def flushWriteBehind (w : World) : World × List (Bytes × User) :=
  let k := rdbKeys (str "buffer:user:*") w
  flushLoop k.2.1 k.1 []

/-- One iteration of the refresh loop. -/
def refreshOne (id : Int) (w : World) : World :=
  let key := userKey id
  let t := rdbTTL key w
  if t.2.1 < 30 * second then
    let u : User := ⟨id, str "Hot User"⟩
    let buf := jsonMarshal u
    (rdbSet key buf (10 * minute) t.1).1
  else t.1

/-- Refresh-ahead of the hot keys, `refreshAheadHotKeys`. -/
def refreshAheadHotKeys : List Int → World → World
  | [], w => w
  | id :: hotIDs, w => refreshAheadHotKeys hotIDs (refreshOne id w)

/-! ## Sample worlds -/

/-- An empty cache on which every command goes through. -/
def World.empty : World := ⟨[], [], [], []⟩

/-! ## Decimal rendering and number literals -/

theorem digitVal_digit (d : Nat) (h : d < 10) : digitVal (ch '0' + d) = some d := by
  have h0 : ch '0' = 48 := by decide
  have h9 : ch '9' = 57 := by decide
  simp only [digitVal, h0, h9]
  rw [if_pos (by omega)]
  congr 1; omega

theorem digitVal_isSome (c : Nat) : (digitVal c).isSome = true ↔ 48 ≤ c ∧ c ≤ 57 := by
  have h0 : ch '0' = 48 := by decide
  have h9 : ch '9' = 57 := by decide
  simp only [digitVal, h0, h9]
  by_cases h : 48 ≤ c ∧ c ≤ 57 <;> simp [h]

theorem formatNatAux_eq (n : Nat) : ∀ fuel acc, n < fuel →
    formatNatAux fuel n acc = formatNat n ++ acc := by
  induction n using Nat.strong_induction_on with
  | _ n ih =>
    intro fuel acc hlt
    obtain ⟨f, rfl⟩ : ∃ f, fuel = f + 1 := ⟨fuel - 1, by omega⟩
    by_cases h : n < 10
    · simp [formatNat, formatNatAux, h]
    · have hd : n / 10 < n := by omega
      have e1 := ih (n / 10) hd f ((ch '0' + n % 10) :: acc) (by omega)
      have e2 := ih (n / 10) hd n [ch '0' + n % 10] hd
      simp only [formatNat, formatNatAux, h, if_false] at e1 e2 ⊢
      rw [e1, e2]; simp

theorem formatNat_small (n : Nat) (h : n < 10) : formatNat n = [ch '0' + n] := by
  simp [formatNat, formatNatAux, h]

theorem formatNat_step (n : Nat) (h : 10 ≤ n) :
    formatNat n = formatNat (n / 10) ++ [ch '0' + n % 10] := by
  have h1 : ¬ n < 10 := by omega
  have := formatNatAux_eq (n / 10) n [ch '0' + n % 10] (by omega)
  simpa [formatNat, formatNatAux, h1] using this

theorem formatNat_digits (n : Nat) : ∀ c ∈ formatNat n, (digitVal c).isSome = true := by
  induction n using Nat.strong_induction_on with
  | _ n ih =>
    intro c hc
    by_cases h : n < 10
    · rw [formatNat_small n h] at hc
      simp only [List.mem_singleton] at hc
      rw [hc, digitVal_digit n h]; rfl
    · rw [formatNat_step n (by omega)] at hc
      simp only [List.mem_append, List.mem_singleton] at hc
      rcases hc with hc | hc
      · exact ih (n / 10) (by omega) c hc
      · rw [hc, digitVal_digit _ (Nat.mod_lt _ (by omega))]; rfl

theorem formatNat_head (n : Nat) (hn : 0 < n) :
    ∃ c tl, formatNat n = c :: tl ∧ c ≠ ch '0' := by
  induction n using Nat.strong_induction_on with
  | _ n ih =>
    by_cases h : n < 10
    · refine ⟨ch '0' + n, [], formatNat_small n h, ?_⟩
      omega
    · obtain ⟨c, tl, e, hc⟩ := ih (n / 10) (by omega) (by omega)
      exact ⟨c, tl ++ [ch '0' + n % 10], by rw [formatNat_step n (by omega), e]; rfl, hc⟩

theorem formatNat_ne_nil (n : Nat) : formatNat n ≠ [] := by
  by_cases h : n < 10
  · rw [formatNat_small n h]; simp
  · rw [formatNat_step n (by omega)]; simp

theorem foldl_digits_formatNat (n : Nat) :
    (formatNat n).foldl (fun acc d =>
      match acc, digitVal d with
      | some a, some v => some (10 * a + v)
      | _, _ => none) (some 0) = some n := by
  induction n using Nat.strong_induction_on with
  | _ n ih =>
    by_cases h : n < 10
    · rw [formatNat_small n h]
      simp [digitVal_digit n h]
    · rw [formatNat_step n (by omega), List.foldl_append, ih (n / 10) (by omega)]
      simp only [List.foldl_cons, List.foldl_nil, digitVal_digit _ (Nat.mod_lt n (by omega : 0 < 10))]
      congr 1; omega

theorem parseDigits_formatNat (n : Nat) : parseDigits (formatNat n) = some n := by
  have h := foldl_digits_formatNat n
  cases e : formatNat n with
  | nil => exact absurd e (formatNat_ne_nil n)
  | cons c cs => rw [e] at h; simpa [parseDigits] using h

theorem formatNat_head_ne_minus (n : Nat) : ∀ c tl, formatNat n = c :: tl → c ≠ ch '-' := by
  intro c tl e hc
  have := (digitVal_isSome c).1 (formatNat_digits n c (by rw [e]; simp))
  have hm : ch '-' = 45 := by decide
  omega

theorem parseInt64_formatInt (i : Int) (h : InInt64 i) : parseInt64 (formatInt i) = some i := by
  unfold InInt64 at h
  unfold formatInt
  by_cases hneg : i < 0
  · simp only [hneg, if_true, parseInt64, parseDigits_formatNat]
    have : i.natAbs ≤ 9223372036854775808 := by omega
    simp only [this, if_true, Option.some.injEq]
    omega
  · simp only [hneg, if_false]
    cases e : formatNat i.natAbs with
    | nil => exact absurd e (formatNat_ne_nil _)
    | cons c cs =>
      have hc := formatNat_head_ne_minus _ c cs e
      simp only [parseInt64, hc, if_false]
      rw [← e, parseDigits_formatNat]
      have : i.natAbs ≤ 9223372036854775807 := by omega
      simp only [this, if_true, Option.some.injEq]
      omega

theorem formatInt_injective : Function.Injective formatInt := by
  intro i j hij
  unfold formatInt at hij
  have key : ∀ n m : Nat, formatNat n = formatNat m → n = m := by
    intro n m e
    have := parseDigits_formatNat n
    rw [e, parseDigits_formatNat] at this
    exact (Option.some.inj this).symm
  by_cases hi : i < 0 <;> by_cases hj : j < 0 <;> simp only [hi, hj, if_true, if_false] at hij
  · have := key _ _ (List.cons.inj hij).2; omega
  · cases e : formatNat j.natAbs with
    | nil => exact absurd e (formatNat_ne_nil _)
    | cons c cs =>
      rw [e] at hij
      exact absurd (List.cons.inj hij).1.symm (formatNat_head_ne_minus _ c cs e)
  · cases e : formatNat i.natAbs with
    | nil => exact absurd e (formatNat_ne_nil _)
    | cons c cs =>
      rw [e] at hij
      exact absurd (List.cons.inj hij).1 (formatNat_head_ne_minus _ c cs e)
  · have := key _ _ hij; omega

theorem spanDigits_append (ds : Bytes) (c : Nat) (rest : Bytes)
    (hds : ∀ d ∈ ds, (digitVal d).isSome = true) (hc : (digitVal c).isSome = false) :
    spanDigits (ds ++ c :: rest) = (ds, c :: rest) := by
  induction ds with
  | nil => simp [spanDigits, hc]
  | cons d ds ih =>
    have hd := hds d (by simp)
    have := ih (fun x hx => hds x (by simp [hx]))
    simp [spanDigits, hd, this]

theorem scanIntPart_formatNat (n : Nat) (c : Nat) (rest : Bytes)
    (hc : (digitVal c).isSome = false) :
    scanIntPart (formatNat n ++ c :: rest) = some (formatNat n, c :: rest) := by
  by_cases hn : n = 0
  · subst hn; simp [formatNat_small, scanIntPart]
  · obtain ⟨d, tl, e, hd⟩ := formatNat_head n (by omega)
    have hall := formatNat_digits n
    rw [e] at hall ⊢
    have h1 := hall d (by simp)
    have h2 := spanDigits_append tl c rest (fun x hx => hall x (by simp [hx])) hc
    simp [scanIntPart, hd, h1, h2]

theorem scanNumber_formatInt (i : Int) (rest : Bytes) :
    scanNumber (formatInt i ++ ch ',' :: rest) = some (formatInt i, ch ',' :: rest) := by
  have hc : (digitVal (ch ',')).isSome = false := by decide
  have hdot : ch ',' ≠ ch '.' := by decide
  have he : ¬ (ch ',' = ch 'e' ∨ ch ',' = ch 'E') := by decide
  unfold formatInt
  by_cases hneg : i < 0
  · simp [hneg, scanNumber, scanIntPart_formatNat _ (ch ',') rest hc, scanFraction,
      scanExponent, hdot, he]
  · cases e : formatNat i.natAbs with
    | nil => exact absurd e (formatNat_ne_nil _)
    | cons c cs =>
      have hm := formatNat_head_ne_minus _ c cs e
      have := scanIntPart_formatNat i.natAbs (ch ',') rest hc
      rw [e, List.cons_append] at this
      simp [hneg, scanNumber, hm, this, scanFraction, scanExponent, hdot, he]

/-! ## UTF-8 and string literals -/

/-! ### UTF-8 -/

theorem isCont_iff (b : Nat) : isCont b = true ↔ 0x80 ≤ b ∧ b ≤ 0xBF := by
  simp [isCont]

theorem encodeRune_two (r : Nat) (h1 : 0x80 ≤ r) (h2 : r < 0x800) :
    encodeRune r = [0xC0 + r / 64, 0x80 + r % 64] := by
  unfold encodeRune
  rw [if_neg (by omega), if_pos h2]

theorem encodeRune_three (r : Nat) (h1 : 0x800 ≤ r) (h2 : r < 0x10000)
    (h3 : ¬ (0xD800 ≤ r ∧ r < 0xE000)) :
    encodeRune r = [0xE0 + r / 4096, 0x80 + r / 64 % 64, 0x80 + r % 64] := by
  unfold encodeRune
  rw [if_neg (by omega), if_neg (by omega), if_neg (by omega), if_pos h2]

theorem encodeRune_four (r : Nat) (h1 : 0x10000 ≤ r) (h2 : r ≤ 0x10FFFF) :
    encodeRune r =
      [0xF0 + r / 262144, 0x80 + r / 4096 % 64, 0x80 + r / 64 % 64, 0x80 + r % 64] := by
  unfold encodeRune
  rw [if_neg (by omega), if_neg (by omega), if_neg (by omega), if_neg (by omega)]

theorem decodeRune_two (b b1 : Nat) (r : Bytes) (h : 0xC2 ≤ b ∧ b ≤ 0xDF) (c1 : isCont b1 = true) :
    decodeRune (b :: b1 :: r) = ((b - 0xC0) * 64 + (b1 - 0x80), 2) := by
  rw [decodeRune, if_neg (by omega), if_pos h]
  simp only [c1, if_true]

theorem decodeRune_three (b b1 b2 : Nat) (r : Bytes) (h : 0xE0 ≤ b ∧ b ≤ 0xEF)
    (c : (if b = 0xE0 then 0xA0 else 0x80) ≤ b1 ∧ b1 ≤ (if b = 0xED then 0x9F else 0xBF) ∧
      isCont b2 = true) :
    decodeRune (b :: b1 :: b2 :: r) =
      ((b - 0xE0) * 4096 + (b1 - 0x80) * 64 + (b2 - 0x80), 3) := by
  rw [decodeRune, if_neg (by omega), if_neg (by omega), if_pos h]
  simp only [c, and_self, if_true]

theorem decodeRune_four (b b1 b2 b3 : Nat) (r : Bytes) (h : 0xF0 ≤ b ∧ b ≤ 0xF4)
    (c : (if b = 0xF0 then 0x90 else 0x80) ≤ b1 ∧ b1 ≤ (if b = 0xF4 then 0x8F else 0xBF) ∧
      isCont b2 = true ∧ isCont b3 = true) :
    decodeRune (b :: b1 :: b2 :: b3 :: r) =
      ((b - 0xF0) * 262144 + (b1 - 0x80) * 4096 + (b2 - 0x80) * 64 + (b3 - 0x80), 4) := by
  rw [decodeRune, if_neg (by omega), if_neg (by omega), if_neg (by omega), if_pos h]
  simp only [c, and_self, if_true]

theorem decodeRune_shape (b : Nat) (rest : Bytes) (hb : 0x80 ≤ b) :
    decodeRune (b :: rest) = (0xFFFD, 1) ∨
    (∃ b1 r, rest = b1 :: r ∧ (0xC2 ≤ b ∧ b ≤ 0xDF) ∧ isCont b1 = true) ∨
    (∃ b1 b2 r, rest = b1 :: b2 :: r ∧ (0xE0 ≤ b ∧ b ≤ 0xEF) ∧
      ((if b = 0xE0 then 0xA0 else 0x80) ≤ b1 ∧ b1 ≤ (if b = 0xED then 0x9F else 0xBF) ∧
        isCont b2 = true)) ∨
    (∃ b1 b2 b3 r, rest = b1 :: b2 :: b3 :: r ∧ (0xF0 ≤ b ∧ b ≤ 0xF4) ∧
      ((if b = 0xF0 then 0x90 else 0x80) ≤ b1 ∧ b1 ≤ (if b = 0xF4 then 0x8F else 0xBF) ∧
        isCont b2 = true ∧ isCont b3 = true)) := by
  unfold decodeRune
  dsimp only
  rw [if_neg (by omega)]
  by_cases h2 : 0xC2 ≤ b ∧ b ≤ 0xDF
  · rw [if_pos h2]
    rcases rest with _ | ⟨b1, r⟩
    · exact Or.inl rfl
    · by_cases c1 : isCont b1 = true
      · exact Or.inr (Or.inl ⟨b1, r, rfl, h2, c1⟩)
      · left; simp only [c1, Bool.false_eq_true, if_false]
  rw [if_neg h2]
  by_cases h3 : 0xE0 ≤ b ∧ b ≤ 0xEF
  · rw [if_pos h3]
    rcases rest with _ | ⟨b1, _ | ⟨b2, r⟩⟩
    · exact Or.inl rfl
    · exact Or.inl rfl
    · by_cases c : (if b = 0xE0 then 0xA0 else 0x80) ≤ b1 ∧
          b1 ≤ (if b = 0xED then 0x9F else 0xBF) ∧ isCont b2 = true
      · exact Or.inr (Or.inr (Or.inl ⟨b1, b2, r, rfl, h3, c⟩))
      · left; simp only [c, if_false]
  rw [if_neg h3]
  by_cases h4 : 0xF0 ≤ b ∧ b ≤ 0xF4
  · rw [if_pos h4]
    rcases rest with _ | ⟨b1, _ | ⟨b2, _ | ⟨b3, r⟩⟩⟩
    · exact Or.inl rfl
    · exact Or.inl rfl
    · exact Or.inl rfl
    · by_cases c : (if b = 0xF0 then 0x90 else 0x80) ≤ b1 ∧
          b1 ≤ (if b = 0xF4 then 0x8F else 0xBF) ∧ isCont b2 = true ∧ isCont b3 = true
      · exact Or.inr (Or.inr (Or.inr ⟨b1, b2, b3, r, rfl, h4, c⟩))
      · left; simp only [c, if_false]
  rw [if_neg h4]
  exact Or.inl rfl

theorem decodeRune_spec (b : Nat) (rest : Bytes) (hb : 0x80 ≤ b)
    (hk : (decodeRune (b :: rest)).2 ≠ 1) :
    ∃ tl rest1, rest = tl ++ rest1 ∧ (decodeRune (b :: rest)).2 = tl.length + 1 ∧
      encodeRune (decodeRune (b :: rest)).1 = b :: tl ∧
      (∀ x, decodeRune (b :: (tl ++ x)) = decodeRune (b :: rest)) ∧
      0x80 ≤ (decodeRune (b :: rest)).1 ∧
      ¬ (0xD800 ≤ (decodeRune (b :: rest)).1 ∧ (decodeRune (b :: rest)).1 < 0xE000) := by
  rcases decodeRune_shape b rest hb with h | ⟨b1, r, rfl, h2, c1⟩ | ⟨b1, b2, r, rfl, h3, c⟩ |
      ⟨b1, b2, b3, r, rfl, h4, c⟩
  · rw [h] at hk; exact absurd rfl hk
  · have c1a := (isCont_iff b1).1 c1
    have hd := decodeRune_two b b1 r h2 c1
    refine ⟨[b1], r, rfl, ?_, ?_, ?_, ?_, ?_⟩
    · rw [hd]; rfl
    · rw [hd]
      simp only
      rw [encodeRune_two _ (by omega) (by omega)]
      simp only [List.cons.injEq, and_true]
      constructor <;> omega
    · intro x; rw [hd]; exact decodeRune_two b b1 _ h2 c1
    · rw [hd]; simp only; omega
    · rw [hd]; simp only; omega
  · have c2a := (isCont_iff b2).1 c.2.2
    have hd := decodeRune_three b b1 b2 r h3 c
    have hb1 : 0x80 ≤ b1 ∧ b1 ≤ 0xBF ∧ (b = 0xE0 → 0xA0 ≤ b1) ∧ (b = 0xED → b1 ≤ 0x9F) := by
      obtain ⟨ca, cb, _⟩ := c
      split_ifs at ca cb <;> omega
    refine ⟨[b1, b2], r, rfl, ?_, ?_, ?_, ?_, ?_⟩
    · rw [hd]; rfl
    · rw [hd]
      simp only
      rw [encodeRune_three _ (by omega) (by omega) (by omega)]
      simp only [List.cons.injEq, and_true]
      refine ⟨?_, ?_, ?_⟩ <;> omega
    · intro x; rw [hd]; exact decodeRune_three b b1 b2 _ h3 c
    · rw [hd]; simp only; omega
    · rw [hd]; simp only; omega
  · have c2a := (isCont_iff b2).1 c.2.2.1
    have c3a := (isCont_iff b3).1 c.2.2.2
    have hd := decodeRune_four b b1 b2 b3 r h4 c
    have hb1 : 0x80 ≤ b1 ∧ b1 ≤ 0xBF ∧ (b = 0xF0 → 0x90 ≤ b1) ∧ (b = 0xF4 → b1 ≤ 0x8F) := by
      obtain ⟨ca, cb, _⟩ := c
      split_ifs at ca cb <;> omega
    refine ⟨[b1, b2, b3], r, rfl, ?_, ?_, ?_, ?_, ?_⟩
    · rw [hd]; rfl
    · rw [hd]
      simp only
      rw [encodeRune_four _ (by omega) (by omega)]
      simp only [List.cons.injEq, and_true]
      refine ⟨?_, ?_, ?_, ?_⟩ <;> omega
    · intro x; rw [hd]; exact decodeRune_four b b1 b2 b3 _ h4 c
    · rw [hd]; simp only; omega
    · rw [hd]; simp only; omega

/-! ### String literals -/

theorem escapeAux_skip (l : Bytes) : ∀ n, escapeAux n l = escapeAux 0 (l.drop n) := by
  induction l with
  | nil => intro n; cases n <;> rfl
  | cons b l ih =>
    intro n
    cases n with
    | zero => rfl
    | succ n => rw [escapeAux, ih n]; rfl

theorem validAux_skip (l : Bytes) : ∀ n, validAux n l = validAux 0 (l.drop n) := by
  induction l with
  | nil => intro n; cases n <;> rfl
  | cons b l ih =>
    intro n
    cases n with
    | zero => rfl
    | succ n => rw [validAux, ih n]; rfl

theorem hex4_byte : ∀ n, n < 128 →
    hex4 (ch '0') (ch '0') (hexDigit (n / 16)) (hexDigit (n % 16)) = some n := by
  decide

theorem scanString_plain (f : Nat) (c : Nat) (t : Bytes)
    (h1 : c ≠ ch '"') (h2 : c ≠ ch '\\') (h3 : ¬ c < 0x20) (h4 : c < 0x80) :
    scanString (f + 1) (c :: t) = (scanString f t).map fun p => (c :: p.1, p.2) := by
  simp [scanString, h1, h2, h3, h4]

theorem scanString_simple (f : Nat) (e d : Nat) (t : Bytes)
    (h1 : e ≠ ch 'u') (h2 : unescapeSimple e = some d) :
    scanString (f + 1) (ch '\\' :: e :: t) = (scanString f t).map fun p => (d :: p.1, p.2) := by
  have hq : ch '\\' ≠ ch '"' := by decide
  simp [scanString, h1, h2, hq]

theorem scanString_u (f : Nat) (a b c d : Nat) (r : Nat) (t : Bytes)
    (h1 : hex4 a b c d = some r) (h2 : r < 0xD800) :
    scanString (f + 1) (ch '\\' :: ch 'u' :: a :: b :: c :: d :: t) =
      (scanString f t).map fun p => (encodeRune r ++ p.1, p.2) := by
  have h3 : ¬ (0xD800 ≤ r ∧ r < 0xE000) := by omega
  have hq : ch '\\' ≠ ch '"' := by decide
  simp [scanString, h1, h3, hq]

theorem scanString_multi (f : Nat) (c : Nat) (t : Bytes) (h : 0x80 ≤ c) :
    scanString (f + 1) (c :: t) =
      (scanString f ((c :: t).drop (decodeRune (c :: t)).2)).map fun p =>
        (encodeRune (decodeRune (c :: t)).1 ++ p.1, p.2) := by
  have h1 : c ≠ ch '"' := by have : ch '"' = 34 := by decide
                             omega
  have h2 : c ≠ ch '\\' := by have : ch '\\' = 92 := by decide
                              omega
  have h3 : ¬ c < 0x20 := by omega
  have h4 : ¬ c < 0x80 := by omega
  simp [scanString, h1, h2, h3, h4]

theorem scanString_escapeByte (f : Nat) (b : Nat) (t : Bytes) (hb : b < 0x80) :
    scanString (f + 1) (escapeByte b ++ t) = (scanString f t).map fun p => (b :: p.1, p.2) := by
  have v : ch '"' = 34 ∧ ch '\\' = 92 ∧ ch '&' = 38 ∧ ch '<' = 60 ∧ ch '>' = 62 ∧
      ch '\n' = 10 ∧ ch '\r' = 13 ∧ ch '\t' = 9 := by decide
  unfold escapeByte
  by_cases hs : htmlSafe b = true
  · simp only [hs, if_true, List.singleton_append]
    simp only [htmlSafe, Bool.and_eq_true, decide_eq_true_eq, Bool.not_eq_true',
      Bool.or_eq_false_iff, beq_eq_false_iff_ne, ne_eq] at hs
    exact scanString_plain f b t hs.2.1.1.1.1 hs.2.2 (by omega) hb
  · simp only [hs, Bool.false_eq_true, if_false]
    by_cases h1 : b = ch '\\' ∨ b = ch '"'
    · simp only [h1, if_true]
      rcases h1 with rfl | rfl
      · exact scanString_simple f _ _ t (by decide) (by decide)
      · exact scanString_simple f _ _ t (by decide) (by decide)
    by_cases h2 : b = 8
    · subst h2; exact scanString_simple f _ _ t (by decide) (by decide)
    by_cases h3 : b = 12
    · subst h3; exact scanString_simple f _ _ t (by decide) (by decide)
    by_cases h4 : b = ch '\n'
    · rw [h4]; exact scanString_simple f _ _ t (by decide) (by decide)
    by_cases h5 : b = ch '\r'
    · rw [h5]; exact scanString_simple f _ _ t (by decide) (by decide)
    by_cases h6 : b = ch '\t'
    · rw [h6]; exact scanString_simple f _ _ t (by decide) (by decide)
    simp only [h1, h2, h3, h4, h5, h6, if_false]
    have := scanString_u f (ch '0') (ch '0') (hexDigit (b / 16)) (hexDigit (b % 16))
      b t (hex4_byte b hb) (by omega)
    have he : encodeRune b = [b] := by unfold encodeRune; rw [if_pos hb]
    rw [he] at this
    exact this

theorem escapeByte_length (b : Nat) : 1 ≤ (escapeByte b).length := by
  unfold escapeByte; split_ifs <;> simp

theorem scanString_escapeString : ∀ (n : Nat) (s : Bytes), s.length = n → validUTF8 s = true →
    ∀ (f : Nat) (t : Bytes), (escapeString s).length < f →
      scanString f (escapeString s ++ ch '"' :: t) = some (s, t) := by
  intro n
  induction n using Nat.strong_induction_on with
  | _ n ih =>
    intro s hn hv f t hf
    obtain ⟨g, rfl⟩ : ∃ g, f = g + 1 := ⟨f - 1, by omega⟩
    rcases s with _ | ⟨b, rest⟩
    · simp [escapeString, escapeAux, scanString]
    · simp only [List.length_cons] at hn
      unfold validUTF8 at hv
      unfold escapeString at hf ⊢
      by_cases hb : b < 0x80
      · rw [validAux, if_pos hb] at hv
        rw [escapeAux, if_pos hb, List.length_append] at hf
        have hl := escapeByte_length b
        rw [escapeAux, if_pos hb, List.append_assoc, scanString_escapeByte g b _ hb]
        have := ih rest.length (by omega) rest rfl hv g t (by unfold escapeString; omega)
        unfold escapeString at this
        rw [this]; rfl
      · rw [validAux, if_neg hb] at hv
        have hk : (decodeRune (b :: rest)).2 ≠ 1 := by
          intro h; rw [if_pos h] at hv; exact absurd hv (by decide)
        rw [if_neg hk] at hv
        obtain ⟨tl, rest1, hrest, hsize, henc, hpre, hr, _⟩ :=
          decodeRune_spec b rest (by omega) hk
        have hdrop : rest.drop ((decodeRune (b :: rest)).2 - 1) = rest1 := by
          rw [hsize, hrest]; simp
        rw [validAux_skip, hdrop] at hv
        have hne : decodeRune (b :: rest) ≠ (0xFFFD, 1) := by
          intro h; rw [h] at hk; exact hk rfl
        rw [escapeAux, if_neg hb, if_neg hne, escapeAux_skip, hdrop] at hf
        rw [escapeAux, if_neg hb, if_neg hne, escapeAux_skip, hdrop]
        have hlen1 : rest1.length < n := by rw [← hn, hrest]; simp; omega
        by_cases hls : (decodeRune (b :: rest)).1 = 0x2028 ∨ (decodeRune (b :: rest)).1 = 0x2029
        · rw [if_pos hls] at hf ⊢
          simp only [List.length_append, List.length_cons, List.length_nil] at hf
          have ih1 := ih rest1.length hlen1 rest1 rfl hv g t (by unfold escapeString; omega)
          unfold escapeString at ih1
          have hx : hex4 (ch '2') (ch '0') (ch '2') (hexDigit ((decodeRune (b :: rest)).1 % 16))
              = some (decodeRune (b :: rest)).1 := by
            rcases hls with h | h <;> rw [h] <;> decide
          have := scanString_u g _ _ _ _ _ (escapeAux 0 rest1 ++ ch '"' :: t) hx
            (by rcases hls with h | h <;> rw [h] <;> decide)
          rw [List.append_assoc]
          simp only [List.cons_append, List.nil_append] at this ⊢
          rw [this, ih1, henc, hrest]
          rfl
        · rw [if_neg hls] at hf ⊢
          have htake : (b :: rest).take (decodeRune (b :: rest)).2 = b :: tl := by
            rw [hsize, hrest]; simp
          rw [htake] at hf ⊢
          simp only [List.length_append, List.length_cons] at hf
          have ih1 := ih rest1.length hlen1 rest1 rfl hv g t (by unfold escapeString; omega)
          unfold escapeString at ih1
          rw [List.append_assoc, List.cons_append,
            scanString_multi g b _ (by omega), hpre, hsize]
          have hd2 : (b :: (tl ++ (escapeAux 0 rest1 ++ ch '"' :: t))).drop (tl.length + 1) =
              escapeAux 0 rest1 ++ ch '"' :: t := by simp
          rw [hd2, ih1, henc, hrest]
          rfl

theorem scanString_literal (s rest : Bytes) (hv : validUTF8 s = true) :
    scanString (escapeString s ++ ch '"' :: rest).length (escapeString s ++ ch '"' :: rest) =
      some (s, rest) := by
  apply scanString_escapeString s.length s rfl hv
  simp only [List.length_append, List.length_cons]; omega

/-! ## Decoding what was encoded -/

/-! ### Decoding what was encoded -/

theorem formatInt_head (i : Int) :
    ∃ c tl, formatInt i = c :: tl ∧ (c = ch '-' ∨ (digitVal c).isSome = true) := by
  unfold formatInt
  by_cases h : i < 0
  · exact ⟨ch '-', formatNat i.natAbs, by simp [h], Or.inl rfl⟩
  · cases e : formatNat i.natAbs with
    | nil => exact absurd e (formatNat_ne_nil _)
    | cons c cs =>
      refine ⟨c, cs, by simp [h], Or.inr ?_⟩
      exact formatNat_digits _ c (by rw [e]; simp)

theorem skipWs_cons (c : Nat) (t : Bytes) (h : isSpace c = false) :
    skipWs (c :: t) = c :: t := by
  simp [skipWs, h]

theorem scanValue_number (f depth : Nat) (i : Int) (rest : Bytes) :
    scanValue (f + 1) depth (formatInt i ++ ch ',' :: rest) =
      some (Tok.number (formatInt i), ch ',' :: rest) := by
  obtain ⟨c, tl, e, hc⟩ := formatInt_head i
  have hnum := scanNumber_formatInt i rest
  rw [e] at hnum ⊢
  have hrange : c = 45 ∨ (48 ≤ c ∧ c ≤ 57) := by
    rcases hc with rfl | hc
    · left; decide
    · right; exact (digitVal_isSome c).1 hc
  have v : ch ' ' = 32 ∧ ch '\t' = 9 ∧ ch '\r' = 13 ∧ ch '\n' = 10 ∧ ch '{' = 123 ∧
      ch '[' = 91 ∧ ch '"' = 34 := by decide
  have hsp : isSpace c = false := by
    simp only [isSpace, v, Bool.or_eq_false_iff, beq_eq_false_iff_ne, ne_eq]
    omega
  have h1 : c ≠ ch '{' := by omega
  have h2 : c ≠ ch '[' := by omega
  have h3 : c ≠ ch '"' := by omega
  rw [List.cons_append] at hnum ⊢
  rw [scanValue, skipWs_cons _ _ hsp]
  simp only [h1, h2, h3, hc, if_false, if_true, hnum]
  rfl

theorem scanValue_string (f depth : Nat) (s rest : Bytes) (hv : validUTF8 s = true) :
    scanValue (f + 1) depth (ch '"' :: (escapeString s ++ ch '"' :: rest)) =
      some (Tok.string s, rest) := by
  have h := scanString_literal s rest hv
  have h1 : ch '"' ≠ ch '{' := by decide
  have h2 : ch '"' ≠ ch '[' := by decide
  rw [scanValue, skipWs_cons _ _ (by decide)]
  simp only [h, h1, h2, if_false, if_true]
  rfl

theorem scanMembers_cons (f depth : Nat) (k v r : Bytes) (tok : Tok) (sep : Nat)
    (hk : validUTF8 k = true)
    (hv : scanValue f depth v = some (tok, sep :: r)) (hsep : isSpace sep = false) :
    scanMembers (f + 1) depth (ch '"' :: (escapeString k ++ ch '"' :: ch ':' :: v)) =
      if sep = ch ',' then
        (scanMembers f depth (skipWs r)).map fun p => ((k, tok) :: p.1, p.2)
      else if sep = ch '}' then some ([(k, tok)], r)
      else none := by
  have h := scanString_literal k (ch ':' :: v) hk
  rw [scanMembers]
  simp only [h, if_true, skipWs_cons _ _ (show isSpace (ch ':') = false by decide), hv,
    skipWs_cons _ _ hsep]

theorem parseDocument_marshal (u : User) (hv : validUTF8 u.Name = true) :
    parseDocument (jsonMarshal u) =
      some (Document.object
        [(str "id", Tok.number (formatInt u.ID)), (str "name", Tok.string u.Name)]) := by
  have e : jsonMarshal u = ch '{' :: ch '"' :: (escapeString (str "id") ++ ch '"' :: ch ':' ::
      (formatInt u.ID ++ ch ',' :: ch '"' :: (escapeString (str "name") ++ ch '"' :: ch ':' ::
      ch '"' :: (escapeString u.Name ++ ch '"' :: ch '}' :: [])))) := by
    have e1 : str "\x7b\"id\":" = ch '{' :: ch '"' :: (escapeString (str "id") ++
        [ch '"', ch ':']) := by decide
    have e2 : str ",\"name\":\"" = ch ',' :: ch '"' :: (escapeString (str "name") ++
        [ch '"', ch ':', ch '"']) := by decide
    have e3 : str "\"\x7d" = [ch '"', ch '}'] := by decide
    rw [jsonMarshal, e1, e2, e3]
    simp
  obtain ⟨g, hg⟩ : ∃ g, 2 * (jsonMarshal u).length + 2 = g + 3 :=
    ⟨2 * (jsonMarshal u).length - 1, by
      have : 2 ≤ (jsonMarshal u).length := by rw [e]; simp
      omega⟩
  have h2 := scanMembers_cons (g + 1) 1 (str "name")
    (ch '"' :: (escapeString u.Name ++ ch '"' :: ch '}' :: [])) [] (Tok.string u.Name) (ch '}')
    (by decide) (scanValue_string g 1 _ _ hv) (by decide)
  have h1 := scanMembers_cons (g + 2) 1 (str "id")
    (formatInt u.ID ++ ch ',' :: ch '"' :: (escapeString (str "name") ++ ch '"' :: ch ':' ::
      ch '"' :: (escapeString u.Name ++ ch '"' :: ch '}' :: [])))
    _ (Tok.number (formatInt u.ID)) (ch ',') (by decide)
    (scanValue_number (g + 1) 1 _ _) (by decide)
  rw [skipWs_cons _ _ (by decide), h2, if_pos rfl, if_neg (by decide), if_pos rfl] at h1
  unfold parseDocument
  simp only [hg]
  rw [e, skipWs_cons _ _ (by decide)]
  simp only [if_true, skipWs_cons _ _ (show isSpace (ch '"') = false by decide)]
  rw [if_neg (by decide), h1]
  simp [skipWs]

theorem jsonUnmarshal_jsonMarshal (u : User) (h : InInt64 u.ID) (hv : validUTF8 u.Name = true) :
    jsonUnmarshal (jsonMarshal u) = (u, none) := by
  have f1 : foldEq (str "id") (str "id") = true := by decide
  have f2 : foldEq (str "name") (str "id") = false := by decide
  have f3 : foldEq (str "name") (str "name") = true := by decide
  simp only [jsonUnmarshal, parseDocument_marshal u hv, assignMembers, assignMember,
    parseInt64_formatInt u.ID h, f1, f2, f3, if_true, Bool.false_eq_true, if_false]
  simp [User.zero]

/-! ## Keys, key space, commands -/

/-! ### Keys -/

theorem userKey_injective : Function.Injective userKey := by
  intro i j h
  exact formatInt_injective (List.append_cancel_left h)

theorem bufferKey_injective : Function.Injective bufferKey := by
  intro i j h
  exact formatInt_injective (List.append_cancel_left h)

theorem userKey_ne_bufferKey (i j : Int) : userKey i ≠ bufferKey j := by
  intro h
  have h1 : ch 'u' :: (str "ser:" ++ formatInt i) = ch 'b' :: (str "uffer:user:" ++ formatInt j) :=
    h
  exact absurd (List.cons.inj h1).1 (by decide)

theorem any_tails_isEmpty (s : Bytes) : (s.tails.any fun t => globMatch [] t) = true := by
  simp only [List.any_eq_true, List.mem_tails]
  exact ⟨[], List.nil_suffix, rfl⟩

theorem globMatch_cons (c d : Nat) (p s : Bytes) (h1 : c ≠ ch '*') (h2 : c ≠ ch '?') :
    globMatch (c :: p) (d :: s) = (decide (d = c) && globMatch p s) := by
  simp [globMatch, h1, h2]

theorem bufferKey_matches (j : Int) :
    globMatch (str "buffer:user:*") (bufferKey j) = true := by
  have e1 : str "buffer:user:*" = [98, 117, 102, 102, 101, 114, 58, 117, 115, 101, 114, 58,
      ch '*'] := by decide
  have e2 : str "buffer:user:" = [98, 117, 102, 102, 101, 114, 58, 117, 115, 101, 114, 58] := by
    decide
  have hs : ch '*' = 42 ∧ ch '?' = 63 := by decide
  rw [bufferKey, e1, e2]
  simp only [List.cons_append, List.nil_append]
  repeat rw [globMatch_cons _ _ _ _ (by omega) (by omega)]
  simp [globMatch, any_tails_isEmpty]

theorem userKey_not_matches (i : Int) :
    globMatch (str "buffer:user:*") (userKey i) = false := by
  have e1 : str "buffer:user:*" = 98 :: str "uffer:user:*" := by decide
  have e2 : str "user:" = 117 :: str "ser:" := by decide
  have hs : ch '*' = 42 ∧ ch '?' = 63 := by decide
  rw [userKey, e1, e2, List.cons_append, globMatch_cons _ _ _ _ (by omega) (by omega)]
  simp

theorem ne_userKey_of_matches (k : Bytes) (i : Int)
    (h : globMatch (str "buffer:user:*") k = true) : k ≠ userKey i := by
  rintro rfl
  rw [userKey_not_matches] at h
  exact absurd h (by decide)

/-! ### The key space -/

theorem lookup_erase_self (k : Bytes) (st : Store) : (Store.erase k st).lookup k = none := by
  induction st with
  | nil => rfl
  | cons p st ih =>
    by_cases h : p.1 = k <;> simp [Store.erase, Store.lookup, h, ih]

theorem lookup_erase_ne (k k1 : Bytes) (st : Store) (h : k1 ≠ k) :
    (Store.erase k st).lookup k1 = st.lookup k1 := by
  induction st with
  | nil => rfl
  | cons p st ih =>
    by_cases hp : p.1 = k
    · have hq : ¬ p.1 = k1 := by rw [hp]; exact fun e => h e.symm
      rw [Store.erase, if_pos hp, Store.lookup, if_neg hq, ih]
    · by_cases hq : p.1 = k1
      · rw [Store.erase, if_neg hp, Store.lookup, if_pos hq, Store.lookup, if_pos hq]
      · rw [Store.erase, if_neg hp, Store.lookup, if_neg hq, Store.lookup, if_neg hq, ih]

theorem lookup_insert_self (k : Bytes) (e : Entry) (st : Store) :
    (Store.insert k e st).lookup k = some e := by
  simp [Store.insert, Store.lookup]

theorem lookup_insert_ne (k k1 : Bytes) (e : Entry) (st : Store) (h : k1 ≠ k) :
    (Store.insert k e st).lookup k1 = st.lookup k1 := by
  have : ¬ k = k1 := fun e => h e.symm
  simp [Store.insert, Store.lookup, this, lookup_erase_ne k k1 st h]

theorem erase_erase_self (k : Bytes) (st : Store) :
    Store.erase k (Store.erase k st) = Store.erase k st := by
  induction st with
  | nil => rfl
  | cons p st ih =>
    by_cases h : p.1 = k <;> simp [Store.erase, h, ih]

theorem insert_erase_self (k : Bytes) (e : Entry) (st : Store) :
    Store.insert k e (Store.erase k st) = Store.insert k e st := by
  simp [Store.insert, erase_erase_self]

theorem mem_erase_keys (k k1 : Bytes) (st : Store) :
    k1 ∈ (Store.erase k st).map Prod.fst ↔ k1 ≠ k ∧ k1 ∈ st.map Prod.fst := by
  induction st with
  | nil => simp [Store.erase]
  | cons p st ih =>
    by_cases h : p.1 = k
    · simp only [Store.erase, h, if_true, ih, List.map_cons, List.mem_cons]
      constructor
      · rintro ⟨a, b⟩; exact ⟨a, Or.inr b⟩
      · rintro ⟨a, b | b⟩
        · exact absurd b a
        · exact ⟨a, b⟩
    · simp only [Store.erase, h, if_false, List.map_cons, List.mem_cons, ih]
      constructor
      · rintro (a | ⟨a, b⟩)
        · exact ⟨by rw [a]; exact h, Or.inl a⟩
        · exact ⟨a, Or.inr b⟩
      · rintro ⟨a, b | b⟩
        · exact Or.inl b
        · exact Or.inr ⟨a, b⟩

theorem erase_keys_sublist (k : Bytes) (st : Store) :
    ((Store.erase k st).map Prod.fst).Sublist (st.map Prod.fst) := by
  induction st with
  | nil => simp [Store.erase]
  | cons p st ih =>
    by_cases h : p.1 = k
    · simp only [Store.erase, h, if_true, List.map_cons]
      exact List.Sublist.cons _ ih
    · simp only [Store.erase, h, if_false, List.map_cons]
      exact List.Sublist.cons₂ _ ih

theorem nodup_canon_keys (st : Store) : ((Store.canon st).map Prod.fst).Nodup := by
  induction st with
  | nil => simp [Store.canon]
  | cons p st ih =>
    simp only [Store.canon, List.map_cons, List.nodup_cons]
    refine ⟨?_, List.Nodup.sublist (erase_keys_sublist _ _) ih⟩
    intro hmem
    exact ((mem_erase_keys _ _ _).1 hmem).1 rfl

theorem mem_canon_keys (k : Bytes) (st : Store) :
    k ∈ (Store.canon st).map Prod.fst ↔ k ∈ st.map Prod.fst := by
  induction st with
  | nil => simp [Store.canon]
  | cons p st ih =>
    simp only [Store.canon, List.map_cons, List.mem_cons, mem_erase_keys, ih]
    constructor
    · rintro (a | ⟨_, b⟩)
      · exact Or.inl a
      · exact Or.inr b
    · rintro (a | b)
      · exact Or.inl a
      · by_cases h : k = p.1
        · exact Or.inl h
        · exact Or.inr ⟨h, b⟩

theorem lookup_eq_none_iff (k : Bytes) (st : Store) :
    st.lookup k = none ↔ k ∉ st.map Prod.fst := by
  induction st with
  | nil => simp [Store.lookup]
  | cons p st ih =>
    by_cases h : p.1 = k
    · simp [Store.lookup, h]
    · have : ¬ k = p.1 := fun e => h e.symm
      simp only [Store.lookup, h, if_false, ih, List.map_cons, List.mem_cons, this, false_or]

theorem nodup_keys (pattern : Bytes) (st : Store) : (st.keys pattern).Nodup :=
  List.Nodup.filter _ (nodup_canon_keys st)

theorem mem_keys (pattern k : Bytes) (st : Store) :
    k ∈ st.keys pattern ↔ st.lookup k ≠ none ∧ globMatch pattern k = true := by
  simp only [Store.keys, List.mem_filter, mem_canon_keys, ne_eq, lookup_eq_none_iff,
    Decidable.not_not]

theorem shuffle_perm (is : List Nat) : ∀ l : List Bytes, (shuffle is l).Perm l := by
  induction is with
  | nil => intro l; exact List.Perm.refl _
  | cons i is ih =>
    intro l
    rcases l with _ | ⟨a, l⟩
    · exact List.Perm.refl _
    · have hj : i % (l.length + 1) < (a :: l).length := by
        simp only [List.length_cons]; exact Nat.mod_lt _ (by omega)
      have hd := List.drop_eq_getElem_cons hj
      have hsplit : a :: l = (a :: l).take (i % (l.length + 1)) ++
          ((a :: l).drop (i % (l.length + 1))) := (List.take_append_drop _ _).symm
      rw [shuffle, hd]
      simp only [List.headD_cons]
      refine ((ih _).cons _).trans ?_
      refine List.perm_middle.symm.trans ?_
      rw [← hd, List.take_append_drop]

theorem nodup_shuffle (is : List Nat) (l : List Bytes) (h : l.Nodup) : (shuffle is l).Nodup :=
  (shuffle_perm is l).nodup_iff.2 h

theorem mem_shuffle (is : List Nat) (l : List Bytes) (k : Bytes) : k ∈ shuffle is l ↔ k ∈ l :=
  (shuffle_perm is l).mem_iff

/-! ### The world -/

theorem healthy_nextFails (w : World) (h : w.healthy) : w.nextFails = false := by
  unfold World.healthy at h
  unfold World.nextFails
  cases hf : w.faults with
  | nil => rfl
  | cons b bs => rw [hf] at h; simpa using h b (by simp)

theorem healthy_issue (w : World) (c : Cmd) (h : w.healthy) : (w.issue c).healthy := by
  unfold World.healthy at h ⊢
  intro b hb
  exact h b (List.mem_of_mem_tail hb)

theorem expiryOf_ten_minutes : expiryOf (10 * minute) = some 600 := by decide

theorem expiryOf_five_minutes : expiryOf (5 * minute) = some 300 := by decide

/-! ### Commands -/

theorem rdbGet_world (k : Bytes) (w : World) : (rdbGet k w).1 = w.issue (Cmd.get k) := by
  unfold rdbGet
  by_cases h : w.nextFails = true
  · simp [h]
  · simp only [h, Bool.false_eq_true, if_false]
    cases w.store.lookup k <;> rfl

theorem rdbGet_ok (k : Bytes) (w : World) (e : Entry) (hf : w.nextFails = false)
    (hk : w.store.lookup k = some e) : (rdbGet k w).2 = (e.value, none) := by
  simp [rdbGet, hf, hk]

theorem rdbGet_absent (k : Bytes) (w : World) (hk : w.store.lookup k = none) :
    (rdbGet k w).2.2 ≠ none := by
  unfold rdbGet
  by_cases h : w.nextFails = true <;> simp [h, hk]

theorem rdbGet_value (k : Bytes) (w : World) (hf : w.nextFails = false) :
    (rdbGet k w).2.1 = ((w.store.lookup k).map Entry.value).getD [] := by
  unfold rdbGet
  cases h : w.store.lookup k <;> simp [hf]

theorem rdbSet_ok (k v : Bytes) (x : Duration) (w : World) (hf : w.nextFails = false) :
    rdbSet k v x w =
      ({ w.issue (Cmd.set k v x) with store := w.store.insert k ⟨v, expiryOf x⟩ }, none) := by
  simp [rdbSet, hf]

theorem rdbSet_fail (k v : Bytes) (x : Duration) (w : World) (hf : w.nextFails = true) :
    rdbSet k v x w = (w.issue (Cmd.set k v x), some RedisError.unavailable) := by
  simp [rdbSet, hf]

theorem rdbSet_trace (k v : Bytes) (x : Duration) (w : World) :
    (rdbSet k v x w).1.trace = w.trace ++ [Cmd.set k v x] := by
  unfold rdbSet
  by_cases h : w.nextFails = true <;> simp [h, World.issue]

theorem rdbSet_faults (k v : Bytes) (x : Duration) (w : World) :
    (rdbSet k v x w).1.faults = w.faults.tail := by
  unfold rdbSet
  by_cases h : w.nextFails = true <;> simp [h, World.issue]

theorem rdbSet_lookup_ne (k v : Bytes) (x : Duration) (w : World) (k1 : Bytes)
    (h : k1 ≠ k) : (rdbSet k v x w).1.store.lookup k1 = w.store.lookup k1 := by
  unfold rdbSet
  by_cases hf : w.nextFails = true
  · simp [hf, World.issue]
  · simp [hf, World.issue, lookup_insert_ne k k1 _ _ h]

theorem rdbSet_lookup_self (k v : Bytes) (x : Duration) (w : World) :
    (rdbSet k v x w).1.store.lookup k = w.store.lookup k ∨
      (rdbSet k v x w).1.store.lookup k = some ⟨v, expiryOf x⟩ := by
  unfold rdbSet
  by_cases hf : w.nextFails = true
  · simp [hf, World.issue]
  · simp [hf, World.issue, lookup_insert_self]

theorem rdbDel_ok (k : Bytes) (w : World) (hf : w.nextFails = false) :
    rdbDel k w = ({ w.issue (Cmd.del k) with store := w.store.erase k }, none) := by
  simp [rdbDel, hf]

theorem rdbDel_trace (k : Bytes) (w : World) : (rdbDel k w).1.trace = w.trace ++ [Cmd.del k] := by
  unfold rdbDel
  by_cases h : w.nextFails = true <;> simp [h, World.issue]

theorem rdbDel_faults (k : Bytes) (w : World) : (rdbDel k w).1.faults = w.faults.tail := by
  unfold rdbDel
  by_cases h : w.nextFails = true <;> simp [h, World.issue]

theorem rdbDel_lookup_ne (k : Bytes) (w : World) (k1 : Bytes) (h : k1 ≠ k) :
    (rdbDel k w).1.store.lookup k1 = w.store.lookup k1 := by
  unfold rdbDel
  by_cases hf : w.nextFails = true
  · simp [hf, World.issue]
  · simp [hf, World.issue, lookup_erase_ne k k1 _ h]

theorem rdbTTL_world (k : Bytes) (w : World) : (rdbTTL k w).1 = w.issue (Cmd.ttl k) := by
  unfold rdbTTL
  by_cases h : w.nextFails = true
  · simp [h]
  · simp only [h, Bool.false_eq_true, if_false]
    cases hk : w.store.lookup k with
    | none => rfl
    | some e => cases ht : e.ttl <;> simp [ht]

theorem rdbTTL_ok (k : Bytes) (w : World) (e : Entry) (t : Nat) (hf : w.nextFails = false)
    (hk : w.store.lookup k = some e) (ht : e.ttl = some t) :
    (rdbTTL k w).2.1 = wrapInt64 ((t : Int) * second) := by
  simp [rdbTTL, hf, hk, ht]

theorem rdbKeys_world (p : Bytes) (w : World) :
    (rdbKeys p w).1 = { w.issue (Cmd.keys p) with scans := w.scans.tail } := by
  unfold rdbKeys
  by_cases h : w.nextFails = true <;> simp [h]

theorem rdbKeys_subset (p : Bytes) (w : World) :
    ∀ k ∈ (rdbKeys p w).2.1, k ∈ w.store.keys p := by
  unfold rdbKeys
  by_cases h : w.nextFails = true
  · simp [h]
  · intro k hk
    simp only [h, Bool.false_eq_true, if_false] at hk
    exact (mem_shuffle _ _ k).1 hk

theorem rdbKeys_ok (p : Bytes) (w : World) (hf : w.nextFails = false) :
    (rdbKeys p w).2.1 = shuffle (w.scans.headD []) (w.store.keys p) := by
  simp [rdbKeys, hf]

theorem healthy_of_faults_tail (w w1 : World) (h : w.healthy) (hf : w1.faults = w.faults.tail) :
    w1.healthy := by
  unfold World.healthy at h ⊢
  intro b hb
  rw [hf] at hb
  exact h b (List.mem_of_mem_tail hb)

/-! ## The strategy functions -/

/-! ### Cache-aside -/

theorem getUserByID_hit (id : Int) (w : World) (e : Entry) (hf : w.nextFails = false)
    (hk : w.store.lookup (userKey id) = some e) (hd : (jsonUnmarshal e.value).2 = none) :
    getUserByID id w = (w.issue (Cmd.get (userKey id)), (jsonUnmarshal e.value).1, none) := by
  have h1 := rdbGet_ok (userKey id) w e hf hk
  have h2 := rdbGet_world (userKey id) w
  simp only [getUserByID, h1, h2, hd, if_true]

theorem getUserByID_miss (id : Int) (w : World)
    (h : (rdbGet (userKey id) w).2.2 ≠ none ∨
      (jsonUnmarshal (rdbGet (userKey id) w).2.1).2 ≠ none) :
    getUserByID id w =
      ((rdbSet (userKey id) (jsonMarshal ⟨id, str "John Doe"⟩) (10 * minute)
          (w.issue (Cmd.get (userKey id)))).1, ⟨id, str "John Doe"⟩, none) := by
  have h2 := rdbGet_world (userKey id) w
  unfold getUserByID
  rcases h with h | h
  · simp only [h, if_false, h2]
  · by_cases h1 : (rdbGet (userKey id) w).2.2 = none
    · simp only [h1, h, if_true, if_false, h2]
    · simp only [h1, if_false, h2]

theorem getUserByID_hit_general (id : Int) (w : World)
    (h1 : (rdbGet (userKey id) w).2.2 = none)
    (h2 : (jsonUnmarshal (rdbGet (userKey id) w).2.1).2 = none) :
    getUserByID id w =
      (w.issue (Cmd.get (userKey id)), (jsonUnmarshal (rdbGet (userKey id) w).2.1).1, none) := by
  simp only [getUserByID, h1, h2, if_true, rdbGet_world]

theorem getUserByID_cases (id : Int) (w : World) :
    getUserByID id w =
        (w.issue (Cmd.get (userKey id)), (jsonUnmarshal (rdbGet (userKey id) w).2.1).1, none) ∨
      getUserByID id w =
        ((rdbSet (userKey id) (jsonMarshal ⟨id, str "John Doe"⟩) (10 * minute)
          (w.issue (Cmd.get (userKey id)))).1, ⟨id, str "John Doe"⟩, none) := by
  by_cases h1 : (rdbGet (userKey id) w).2.2 = none
  · by_cases h2 : (jsonUnmarshal (rdbGet (userKey id) w).2.1).2 = none
    · exact Or.inl (getUserByID_hit_general id w h1 h2)
    · exact Or.inr (getUserByID_miss id w (Or.inr h2))
  · exact Or.inr (getUserByID_miss id w (Or.inl h1))

theorem getUserByID_error (id : Int) (w : World) : (getUserByID id w).2.2 = none := by
  rcases getUserByID_cases id w with h | h <;> rw [h]

theorem getUserByID_lookup_ne (id : Int) (w : World) (k : Bytes) (h : k ≠ userKey id) :
    (getUserByID id w).1.store.lookup k = w.store.lookup k := by
  rcases getUserByID_cases id w with h1 | h1 <;> rw [h1]
  · rfl
  · simp only [rdbSet_lookup_ne _ _ _ _ k h]; rfl

theorem getUserByID_corrupt (id : Int) (w : World) (e : Entry)
    (hk : w.store.lookup (userKey id) = some e) (hd : (jsonUnmarshal e.value).2 ≠ none) :
    getUserByID id w =
      ((rdbSet (userKey id) (jsonMarshal ⟨id, str "John Doe"⟩) (10 * minute)
          (w.issue (Cmd.get (userKey id)))).1, ⟨id, str "John Doe"⟩, none) := by
  apply getUserByID_miss
  by_cases hf : w.nextFails = true
  · left; simp [rdbGet, hf]
  · right
    simp only [Bool.not_eq_true] at hf
    rw [rdbGet_ok _ w e hf hk]
    exact hd

/-! ### Write-through -/

theorem updateUserWriteThrough_lookup_ne (id : Int) (name : Bytes) (w : World) (k : Bytes)
    (h : k ≠ userKey id) :
    (updateUserWriteThrough id name w).1.store.lookup k = w.store.lookup k := by
  simp only [updateUserWriteThrough, rdbSet_lookup_ne _ _ _ _ k h]

theorem updateUserWriteThrough_ok (id : Int) (name : Bytes) (w : World)
    (h : (updateUserWriteThrough id name w).2 = none) :
    (updateUserWriteThrough id name w).1 =
      { w.issue (Cmd.set (userKey id) (jsonMarshal ⟨id, name⟩) (10 * minute)) with
        store := w.store.insert (userKey id) ⟨jsonMarshal ⟨id, name⟩, some 600⟩ } := by
  by_cases hf : w.nextFails = true
  · simp [updateUserWriteThrough, rdbSet_fail _ _ _ _ hf] at h
  · simp only [Bool.not_eq_true] at hf
    simp only [updateUserWriteThrough, rdbSet_ok _ _ _ _ hf, expiryOf_ten_minutes]

/-! ### Write-behind -/

theorem writeBehindBuffer_lookup_ne (u : User) (w : World) (k : Bytes)
    (h : k ≠ bufferKey u.ID) :
    (writeBehindBuffer u w).store.lookup k = w.store.lookup k := by
  simp only [writeBehindBuffer, rdbSet_lookup_ne _ _ _ _ k h]

theorem writeBehindBuffer_ok (u : User) (w : World) (hf : w.nextFails = false) :
    writeBehindBuffer u w =
      { w.issue (Cmd.set (bufferKey u.ID) (jsonMarshal u) (5 * minute)) with
        store := w.store.insert (bufferKey u.ID) ⟨jsonMarshal u, some 300⟩ } := by
  simp only [writeBehindBuffer, rdbSet_ok _ _ _ _ hf, expiryOf_five_minutes]

theorem writeBehindBuffer_healthy (u : User) (w : World) (h : w.healthy) :
    (writeBehindBuffer u w).healthy :=
  healthy_of_faults_tail w _ h (by simp only [writeBehindBuffer, rdbSet_faults])

theorem flushOne_lookup_ne (key : Bytes) (w : World) (k : Bytes) (h : k ≠ key) :
    (flushOne key w).1.store.lookup k = w.store.lookup k := by
  simp only [flushOne, rdbDel_lookup_ne _ _ k h, rdbGet_world]; rfl

theorem flushOne_healthy (key : Bytes) (w : World) (h : w.healthy) :
    (flushOne key w).1.healthy := by
  apply healthy_of_faults_tail (w.issue (Cmd.get key)) _ (healthy_issue w _ h)
  simp only [flushOne, rdbDel_faults, rdbGet_world]

theorem flushOne_ok (key : Bytes) (w : World) (h : w.healthy) :
    flushOne key w =
      ({ (w.issue (Cmd.get key)).issue (Cmd.del key) with store := w.store.erase key },
        (jsonUnmarshal (((w.store.lookup key).map Entry.value).getD [])).1) := by
  have h1 := healthy_nextFails w h
  have h2 := healthy_nextFails _ (healthy_issue w (Cmd.get key) h)
  simp only [flushOne, rdbGet_world, rdbDel_ok _ _ h2, rdbGet_value _ _ h1]
  rfl

theorem flushOne_trace (key : Bytes) (w : World) :
    (flushOne key w).1.trace = w.trace ++ [Cmd.get key, Cmd.del key] := by
  simp only [flushOne, rdbDel_trace, rdbGet_world, World.issue, List.append_assoc,
    List.singleton_append]

theorem flushLoop_trace (ks : List Bytes) : ∀ (w : World) (out : List (Bytes × User)),
    (flushLoop ks w out).1.trace = w.trace ++ flushCmds ks := by
  induction ks with
  | nil => intro w out; simp [flushLoop, flushCmds]
  | cons k ks ih =>
    intro w out
    simp only [flushLoop, flushCmds]
    rw [ih, flushOne_trace]
    simp

theorem flushLoop_keys (ks : List Bytes) : ∀ (w : World) (out : List (Bytes × User)),
    (flushLoop ks w out).2.map Prod.fst = out.map Prod.fst ++ ks := by
  induction ks with
  | nil => intro w out; simp [flushLoop]
  | cons k ks ih =>
    intro w out
    simp only [flushLoop]
    rw [ih]
    simp

theorem filter_erase_self (k : Bytes) (st : Store) :
    (Store.erase k st).filter (fun p => decide (p.1 = k)) = [] := by
  induction st with
  | nil => rfl
  | cons p st ih =>
    by_cases h : p.1 = k
    · rw [Store.erase, if_pos h]; exact ih
    · rw [Store.erase, if_neg h, List.filter_cons]
      simp only [h, decide_False, Bool.false_eq_true, if_false]
      exact ih

theorem filter_insert_self (k : Bytes) (e : Entry) (st : Store) :
    (Store.insert k e st).filter (fun p => decide (p.1 = k)) = [(k, e)] := by
  rw [Store.insert, List.filter_cons]
  simp only [decide_True, if_true, filter_erase_self]

theorem flushLoop_out (ks : List Bytes) : ∀ (w : World) (out : List (Bytes × User)),
    flushLoop ks w out = ((flushLoop ks w []).1, out ++ (flushLoop ks w []).2) := by
  induction ks with
  | nil => intro w out; simp [flushLoop]
  | cons k ks ih =>
    intro w out
    simp only [flushLoop]
    rw [ih _ (out ++ _), ih _ ([] ++ _)]
    simp

theorem flushLoop_lookup_notin (ks : List Bytes) : ∀ (w : World) (out : List (Bytes × User))
    (k : Bytes), k ∉ ks → (flushLoop ks w out).1.store.lookup k = w.store.lookup k := by
  induction ks with
  | nil => intro w out k _; rfl
  | cons k0 ks ih =>
    intro w out k hk
    simp only [List.mem_cons, not_or] at hk
    simp only [flushLoop]
    rw [ih _ _ k hk.2, flushOne_lookup_ne _ _ _ hk.1]

theorem flushLoop_log (ks : List Bytes) : ∀ (w : World), w.healthy → ks.Nodup →
    (flushLoop ks w []).2 =
      ks.map fun k => (k, (jsonUnmarshal (((w.store.lookup k).map Entry.value).getD [])).1) := by
  induction ks with
  | nil => intro w _ _; rfl
  | cons k ks ih =>
    intro w h hnd
    rw [List.nodup_cons] at hnd
    simp only [flushLoop]
    rw [flushLoop_out, ih _ (flushOne_healthy k w h) hnd.2, flushOne_ok k w h]
    simp only [List.nil_append, List.map_cons, List.singleton_append, List.cons.injEq, true_and]
    apply List.map_congr_left
    intro k1 hk1
    have hne : k1 ≠ k := fun e => hnd.1 (e ▸ hk1)
    simp only [lookup_erase_ne k k1 _ hne]

theorem flushLoop_erased (ks : List Bytes) : ∀ (w : World), w.healthy →
    ∀ k ∈ ks, (flushLoop ks w []).1.store.lookup k = none := by
  induction ks with
  | nil => intro w _ k hk; simp at hk
  | cons k0 ks ih =>
    intro w h k hk
    simp only [flushLoop]
    rw [flushLoop_out]
    by_cases hin : k ∈ ks
    · exact ih _ (flushOne_healthy k0 w h) k hin
    · have hk0 : k = k0 := by
        rcases List.mem_cons.1 hk with e | e
        · exact e
        · exact absurd e hin
      subst hk0
      rw [flushLoop_lookup_notin ks _ _ k hin, flushOne_ok k w h]
      exact lookup_erase_self k w.store

theorem flushWriteBehind_lookup_nonmatching (w : World) (k : Bytes)
    (h : globMatch (str "buffer:user:*") k = false) :
    (flushWriteBehind w).1.store.lookup k = w.store.lookup k := by
  unfold flushWriteBehind
  rw [flushLoop_lookup_notin _ _ _ k, rdbKeys_world]
  · rfl
  · intro hk
    have := ((mem_keys _ _ _).1 (rdbKeys_subset _ _ k hk)).2
    rw [h] at this
    exact absurd this (by decide)

theorem flushWriteBehind_ok (w : World) (h : w.healthy) :
    flushWriteBehind w =
      flushLoop (shuffle (w.scans.headD []) (w.store.keys (str "buffer:user:*")))
        { w.issue (Cmd.keys (str "buffer:user:*")) with scans := w.scans.tail } [] := by
  simp only [flushWriteBehind, rdbKeys_world, rdbKeys_ok _ _ (healthy_nextFails w h)]

theorem healthy_keys_world (w : World) (h : w.healthy) :
    World.healthy { w.issue (Cmd.keys (str "buffer:user:*")) with scans := w.scans.tail } :=
  healthy_of_faults_tail w _ h rfl

theorem filter_eq_singleton (l : List Bytes) (a : Bytes) (hnd : l.Nodup) (ha : a ∈ l) :
    l.filter (fun k => decide (k = a)) = [a] := by
  induction l with
  | nil => simp at ha
  | cons b l ih =>
    rw [List.nodup_cons] at hnd
    by_cases hb : b = a
    · subst hb
      have : l.filter (fun k => decide (k = b)) = [] := by
        rw [List.filter_eq_nil_iff]
        intro x hx hxb
        have hxb1 : x = b := of_decide_eq_true hxb
        exact hnd.1 (hxb1 ▸ hx)
      simp [List.filter_cons, this]
    · have hin : a ∈ l := by
        rcases List.mem_cons.1 ha with e | e
        · exact absurd e.symm hb
        · exact e
      simp [List.filter_cons, hb, ih hnd.2 hin]

theorem flushWriteBehind_log (w : World) (h : w.healthy) :
    (flushWriteBehind w).2 =
      (shuffle (w.scans.headD []) (w.store.keys (str "buffer:user:*"))).map fun k =>
        (k, (jsonUnmarshal (((w.store.lookup k).map Entry.value).getD [])).1) := by
  rw [flushWriteBehind_ok w h,
    flushLoop_log _ _ (healthy_keys_world w h) (nodup_shuffle _ _ (nodup_keys _ _))]
  rfl

theorem flushWriteBehind_trace (w : World) (h : w.healthy) :
    (flushWriteBehind w).1.trace = w.trace ++ Cmd.keys (str "buffer:user:*") ::
      flushCmds (shuffle (w.scans.headD []) (w.store.keys (str "buffer:user:*"))) := by
  rw [flushWriteBehind_ok w h, flushLoop_trace]
  simp [World.issue]

theorem flushWriteBehind_keys (w : World) (h : w.healthy) :
    (flushWriteBehind w).2.map Prod.fst =
      shuffle (w.scans.headD []) (w.store.keys (str "buffer:user:*")) := by
  rw [flushWriteBehind_ok w h, flushLoop_keys]
  rfl

theorem flushWriteBehind_erased (w : World) (h : w.healthy) (k : Bytes)
    (hk : k ∈ w.store.keys (str "buffer:user:*")) :
    (flushWriteBehind w).1.store.lookup k = none := by
  rw [flushWriteBehind_ok w h]
  exact flushLoop_erased _ _ (healthy_keys_world w h) k ((mem_shuffle _ _ k).2 hk)

theorem flushWriteBehind_empty (w : World) (h : w.store.keys (str "buffer:user:*") = []) :
    flushWriteBehind w =
      ({ w.issue (Cmd.keys (str "buffer:user:*")) with scans := w.scans.tail }, []) := by
  have hk : (rdbKeys (str "buffer:user:*") w).2.1 = [] := by
    apply List.eq_nil_iff_forall_not_mem.2
    intro k hk
    have := rdbKeys_subset _ _ k hk
    rw [h] at this
    simp at this
  simp only [flushWriteBehind, hk, flushLoop, rdbKeys_world]

/-! ### Refresh-ahead -/

theorem wrapInt64_of_inInt64 (i : Int) (h : InInt64 i) : wrapInt64 i = i := by
  unfold InInt64 at h
  unfold wrapInt64
  rw [Int.emod_eq_of_lt (by omega) (by omega)]
  omega

theorem ttl_lt_threshold (t : Nat) (hb : t ≤ 9223372036) :
    wrapInt64 ((t : Int) * second) < 30 * second ↔ t < 30 := by
  rw [wrapInt64_of_inInt64 _ (by unfold InInt64 second; omega)]
  unfold second; omega

theorem refreshOne_lookup_ne (id : Int) (w : World) (k : Bytes) (h : k ≠ userKey id) :
    (refreshOne id w).store.lookup k = w.store.lookup k := by
  unfold refreshOne
  by_cases hc : (rdbTTL (userKey id) w).2.1 < 30 * second
  · simp only [hc, if_true, rdbSet_lookup_ne _ _ _ _ k h, rdbTTL_world]; rfl
  · simp only [hc, if_false, rdbTTL_world]; rfl

theorem refreshOne_lookup_self (id : Int) (w : World) :
    (refreshOne id w).store.lookup (userKey id) = w.store.lookup (userKey id) ∨
      (refreshOne id w).store.lookup (userKey id) =
        some ⟨jsonMarshal ⟨id, str "Hot User"⟩, some 600⟩ := by
  unfold refreshOne
  by_cases hc : (rdbTTL (userKey id) w).2.1 < 30 * second
  · simp only [hc, if_true, rdbTTL_world]
    have := rdbSet_lookup_self (userKey id) (jsonMarshal ⟨id, str "Hot User"⟩) (10 * minute)
      (w.issue (Cmd.ttl (userKey id)))
    rw [expiryOf_ten_minutes] at this
    exact this
  · simp only [hc, if_false, rdbTTL_world]; exact Or.inl rfl

theorem refreshOne_healthy (id : Int) (w : World) (h : w.healthy) :
    (refreshOne id w).healthy := by
  unfold refreshOne
  by_cases hc : (rdbTTL (userKey id) w).2.1 < 30 * second
  · simp only [hc, if_true, rdbTTL_world]
    exact healthy_of_faults_tail _ _ (healthy_issue w _ h) (rdbSet_faults _ _ _ _)
  · simp only [hc, if_false, rdbTTL_world]
    exact healthy_issue w _ h

theorem refreshOne_fresh (id : Int) (w : World) (e : Entry) (t : Nat) (h : w.healthy)
    (hk : w.store.lookup (userKey id) = some e) (ht : e.ttl = some t) (hge : 30 ≤ t)
    (hb : t ≤ 9223372036) :
    (refreshOne id w).store = w.store := by
  have h1 := rdbTTL_ok (userKey id) w e t (healthy_nextFails w h) hk ht
  have h2 : ¬ (wrapInt64 ((t : Int) * second) < 30 * second) := by
    rw [ttl_lt_threshold t hb]; omega
  simp only [refreshOne, h1, h2, if_false, rdbTTL_world]; rfl

theorem refreshOne_stale (id : Int) (w : World) (e : Entry) (t : Nat) (h : w.healthy)
    (hk : w.store.lookup (userKey id) = some e) (ht : e.ttl = some t) (hlt : t < 30) :
    (refreshOne id w).store =
      w.store.insert (userKey id) ⟨jsonMarshal ⟨id, str "Hot User"⟩, some 600⟩ := by
  have h1 := rdbTTL_ok (userKey id) w e t (healthy_nextFails w h) hk ht
  have h2 : wrapInt64 ((t : Int) * second) < 30 * second := by
    rw [ttl_lt_threshold t (by omega)]; exact hlt
  have h3 := healthy_nextFails _ (healthy_issue w (Cmd.ttl (userKey id)) h)
  simp only [refreshOne, h1, h2, if_true, rdbTTL_world, rdbSet_ok _ _ _ _ h3,
    expiryOf_ten_minutes]
  rfl

theorem refresh_lookup_notin (hotIDs : List Int) : ∀ (w : World) (k : Bytes),
    (∀ id ∈ hotIDs, k ≠ userKey id) →
    (refreshAheadHotKeys hotIDs w).store.lookup k = w.store.lookup k := by
  induction hotIDs with
  | nil => intro w k _; rfl
  | cons id ids ih =>
    intro w k h
    simp only [refreshAheadHotKeys]
    rw [ih _ k (fun j hj => h j (List.mem_cons_of_mem _ hj)),
      refreshOne_lookup_ne id w k (h id (List.mem_cons_self _ _))]

theorem refresh_lookup_cases (hotIDs : List Int) : ∀ (w : World) (k : Bytes),
    (refreshAheadHotKeys hotIDs w).store.lookup k = w.store.lookup k ∨
      ∃ id ∈ hotIDs, k = userKey id ∧
        (refreshAheadHotKeys hotIDs w).store.lookup k =
          some ⟨jsonMarshal ⟨id, str "Hot User"⟩, some 600⟩ := by
  induction hotIDs with
  | nil => intro w k; exact Or.inl rfl
  | cons id ids ih =>
    intro w k
    simp only [refreshAheadHotKeys]
    rcases ih (refreshOne id w) k with h | ⟨j, hj, hk, hv⟩
    · by_cases hkey : k = userKey id
      · subst hkey
        rcases refreshOne_lookup_self id w with h1 | h1
        · exact Or.inl (h.trans h1)
        · exact Or.inr ⟨id, List.mem_cons_self _ _, rfl, h.trans h1⟩
      · exact Or.inl (h.trans (refreshOne_lookup_ne id w k hkey))
    · exact Or.inr ⟨j, List.mem_cons_of_mem _ hj, hk, hv⟩

theorem refresh_fresh (hotIDs : List Int) : ∀ (w : World) (id : Int) (e : Entry) (t : Nat),
    w.healthy → w.store.lookup (userKey id) = some e → e.ttl = some t → 30 ≤ t →
    t ≤ 9223372036 →
    (refreshAheadHotKeys hotIDs w).store.lookup (userKey id) = some e := by
  induction hotIDs with
  | nil => intro w id e t _ hk _ _ _; exact hk
  | cons j ids ih =>
    intro w id e t h hk ht hge hb
    simp only [refreshAheadHotKeys]
    apply ih (refreshOne j w) id e t (refreshOne_healthy j w h) _ ht hge hb
    by_cases hj : j = id
    · subst hj; rw [refreshOne_fresh j w e t h hk ht hge hb]; exact hk
    · rw [refreshOne_lookup_ne j w _ (fun e => hj (userKey_injective e).symm)]; exact hk

theorem refresh_stale (hotIDs : List Int) : ∀ (w : World) (id : Int) (e : Entry) (t : Nat),
    w.healthy → id ∈ hotIDs → w.store.lookup (userKey id) = some e → e.ttl = some t → t < 30 →
    (refreshAheadHotKeys hotIDs w).store.lookup (userKey id) =
      some ⟨jsonMarshal ⟨id, str "Hot User"⟩, some 600⟩ := by
  induction hotIDs with
  | nil => intro w id e t _ hin; simp at hin
  | cons j ids ih =>
    intro w id e t h hin hk ht hlt
    simp only [refreshAheadHotKeys]
    by_cases hj : j = id
    · subst hj
      apply refresh_fresh ids (refreshOne j w) j _ 600 (refreshOne_healthy j w h) _ rfl
        (by omega) (by omega)
      rw [refreshOne_stale j w e t h hk ht hlt, lookup_insert_self]
    · have hin1 : id ∈ ids := by
        rcases List.mem_cons.1 hin with e1 | e1
        · exact absurd e1.symm hj
        · exact e1
      apply ih (refreshOne j w) id e t (refreshOne_healthy j w h) hin1 _ ht hlt
      rw [refreshOne_lookup_ne j w _ (fun e => hj (userKey_injective e).symm)]; exact hk

/-! ## The claims -/

/-- C1. Idempotent population of cache-aside: when the key `user:<id>` is
absent and the cache commands go through, the first `getUserByID(id)` is a
miss that writes the entry (payload of the fetched user, 600 s), and a
second call right after it is a hit: it issues a single `GET`, no `SET`,
leaves the key space as it is, and returns the user the first call returned. -/
theorem cacheAside_second_read_hits (id : Int) (w : World) (hid : InInt64 id)
    (hmiss : w.store.lookup (userKey id) = none) (hok : w.healthy) :
    (getUserByID id (getUserByID id w).1).2.1 = (getUserByID id w).2.1 ∧
    (getUserByID id w).2.1 = ⟨id, str "John Doe"⟩ ∧
    (getUserByID id w).1.trace = w.trace ++ [Cmd.get (userKey id),
      Cmd.set (userKey id) (jsonMarshal ⟨id, str "John Doe"⟩) (10 * minute)] ∧
    (getUserByID id w).1.store.lookup (userKey id) =
      some ⟨jsonMarshal ⟨id, str "John Doe"⟩, some 600⟩ ∧
    (getUserByID id (getUserByID id w).1).1.trace =
      (getUserByID id w).1.trace ++ [Cmd.get (userKey id)] ∧
    (getUserByID id (getUserByID id w).1).1.store = (getUserByID id w).1.store ∧
    (getUserByID id (getUserByID id w).1).2.2 = none := by
  have h1 := getUserByID_miss id w (Or.inl (rdbGet_absent _ w hmiss))
  have hf1 := healthy_nextFails _ (healthy_issue w (Cmd.get (userKey id)) hok)
  rw [rdbSet_ok _ _ _ _ hf1, expiryOf_ten_minutes] at h1
  have hok1 : (getUserByID id w).1.healthy := by
    rw [h1]
    exact healthy_of_faults_tail _ _ (healthy_issue w (Cmd.get (userKey id)) hok) rfl
  have hk1 : (getUserByID id w).1.store.lookup (userKey id) =
      some ⟨jsonMarshal ⟨id, str "John Doe"⟩, some 600⟩ := by
    rw [h1]; exact lookup_insert_self _ _ _
  have hrt := jsonUnmarshal_jsonMarshal ⟨id, str "John Doe"⟩ hid
    (show validUTF8 (str "John Doe") = true by decide)
  have h2 := getUserByID_hit id (getUserByID id w).1 _ (healthy_nextFails _ hok1) hk1
    (by rw [hrt])
  rw [hrt] at h2
  refine ⟨?_, ?_, ?_, hk1, ?_, ?_, ?_⟩
  · rw [h2, h1]
  · rw [h1]
  · rw [h1]; simp [World.issue]
  · rw [h2]; rfl
  · rw [h2]; rfl
  · rw [h2]

/-- Witness of C1 on the empty cache, id 1. -/
theorem cacheAside_second_read_hits_witness :
    InInt64 1 ∧ World.empty.store.lookup (userKey 1) = none ∧ World.empty.healthy ∧
      (getUserByID 1 (getUserByID 1 World.empty).1).2.1 = (getUserByID 1 World.empty).2.1 :=
  ⟨by decide, by decide, by decide,
    (cacheAside_second_read_hits 1 World.empty (by decide) (by decide) (by decide)).1⟩

/-- C2, as stated, fails in two ways. The write-through of id 1 returns nil,
the `GET` of the read that follows does not go through, and the read falls
back to the simulated database fetch, which does not know the update. And
with every command going through, a name that is not valid UTF-8 (the bytes
FF FE 41) is stored with U+FFFD in place of each bad byte, so that the read
returns another name. -/
theorem writeThrough_read_counterexample :
    ((updateUserWriteThrough 1 (str "Ann") ⟨[], [false, true], [], []⟩).2 = none ∧
      (getUserByID 1 (updateUserWriteThrough 1 (str "Ann") ⟨[], [false, true], [], []⟩).1).2.1 =
        ⟨1, str "John Doe"⟩ ∧
      (getUserByID 1 (updateUserWriteThrough 1 (str "Ann") ⟨[], [false, true], [], []⟩).1).2.1 ≠
        ⟨1, str "Ann"⟩) ∧
    ((updateUserWriteThrough 1 [0xFF, 0xFE, 0x41] World.empty).2 = none ∧
      (updateUserWriteThrough 1 [0xFF, 0xFE, 0x41] World.empty).1.healthy ∧
      (getUserByID 1 (updateUserWriteThrough 1 [0xFF, 0xFE, 0x41] World.empty).1).2.1 =
        ⟨1, [0xEF, 0xBF, 0xBD, 0xEF, 0xBF, 0xBD, 0x41]⟩ ∧
      (getUserByID 1 (updateUserWriteThrough 1 [0xFF, 0xFE, 0x41] World.empty).1).2.1 ≠
        ⟨1, [0xFF, 0xFE, 0x41]⟩) := by
  decide

/-- C2, amended. Write-through read-after-write consistency: for a name that
is valid UTF-8, if `updateUserWriteThrough(id, name)` returns nil and the
`GET` of the `getUserByID(id)` that follows goes through, that call returns
the user with `ID = id` and `Name = name`, and a nil error. The value comes
from the cache: the update has left the encoding of that user under
`user:<id>` with ten minutes to live, and the read issues the one `GET` and
leaves the cache as the update left it. -/
theorem writeThrough_read_after_write (id : Int) (name : Bytes) (w : World)
    (hid : InInt64 id) (hname : validUTF8 name = true)
    (hset : (updateUserWriteThrough id name w).2 = none)
    (hget : (updateUserWriteThrough id name w).1.nextFails = false) :
    (getUserByID id (updateUserWriteThrough id name w).1).2 = (⟨id, name⟩, none) ∧
    (updateUserWriteThrough id name w).1.store.lookup (userKey id) =
      some ⟨jsonMarshal ⟨id, name⟩, some 600⟩ ∧
    (getUserByID id (updateUserWriteThrough id name w).1).1.store =
      (updateUserWriteThrough id name w).1.store ∧
    (getUserByID id (updateUserWriteThrough id name w).1).1.trace =
      w.trace ++
        [Cmd.set (userKey id) (jsonMarshal ⟨id, name⟩) (10 * minute), Cmd.get (userKey id)] := by
  have h1 := updateUserWriteThrough_ok id name w hset
  have hk : (updateUserWriteThrough id name w).1.store.lookup (userKey id) =
      some ⟨jsonMarshal ⟨id, name⟩, some 600⟩ := by
    rw [h1]; exact lookup_insert_self _ _ _
  have hrt := jsonUnmarshal_jsonMarshal ⟨id, name⟩ hid hname
  have h2 := getUserByID_hit id _ _ hget hk (by rw [hrt])
  refine ⟨by rw [h2, hrt], hk, by rw [h2]; rfl, ?_⟩
  rw [h2, h1]
  simp [World.issue]

/-- Witness of the amended C2: a name with characters of one to four bytes,
written over an older entry. -/
theorem writeThrough_read_after_write_witness :
    InInt64 1 ∧ validUTF8 (str "Zoë €😀") = true ∧
      (updateUserWriteThrough 1 (str "Zoë €😀")
        ⟨[(userKey 1, ⟨str "old", some 5⟩)], [], [], []⟩).2 = none ∧
      (getUserByID 1 (updateUserWriteThrough 1 (str "Zoë €😀")
        ⟨[(userKey 1, ⟨str "old", some 5⟩)], [], [], []⟩).1).2 = (⟨1, str "Zoë €😀"⟩, none) :=
  ⟨by decide, by decide, by decide,
    (writeThrough_read_after_write 1 (str "Zoë €😀")
      ⟨[(userKey 1, ⟨str "old", some 5⟩)], [], [], []⟩
      (by decide) (by decide) (by decide) (by decide)).1⟩

/-- C3 fails on the code. A buffer record whose bytes are not JSON is handed
to the print step as the zero user and deleted all the same; and when the
`GET` of a well-formed record does not go through, the zero user is printed
and the record is deleted without its data having been read. -/
theorem flush_deletes_unflushed_record :
    (jsonUnmarshal (str "not json")).2 = some JsonError.syntaxError ∧
    (flushWriteBehind ⟨[(str "buffer:user:7", ⟨str "not json", some 300⟩)], [], [], []⟩).2 =
      [(str "buffer:user:7", User.zero)] ∧
    (flushWriteBehind
      ⟨[(str "buffer:user:7", ⟨str "not json", some 300⟩)], [], [], []⟩).1.store.lookup
        (str "buffer:user:7") = none ∧
    (flushWriteBehind (writeBehindBuffer ⟨7, str "Ann"⟩ ⟨[], [false, false, true], [], []⟩)).2 =
      [(str "buffer:user:7", User.zero)] ∧
    (flushWriteBehind
      (writeBehindBuffer ⟨7, str "Ann"⟩ ⟨[], [false, false, true], [], []⟩)).1.store.lookup
        (str "buffer:user:7") = none := by
  decide

/-- C4 fails on the code. On an empty cache the `TTL` query for `user:7`
reports the absent key as `-2`, which is below the threshold, and the loop
writes a placeholder entry; the same happens when the query does not go
through and leaves the zero duration. -/
theorem refresh_creates_absent_entry :
    (World.empty.store.lookup (userKey 7) = none) ∧
    (refreshAheadHotKeys [7] World.empty).store.lookup (userKey 7) =
      some ⟨str "\x7b\"id\":7,\"name\":\"Hot User\"\x7d", some 600⟩ ∧
    (refreshAheadHotKeys [7] World.empty).trace =
      [Cmd.ttl (str "user:7"),
        Cmd.set (str "user:7") (str "\x7b\"id\":7,\"name\":\"Hot User\"\x7d") (10 * minute)] ∧
    (refreshAheadHotKeys [7] ⟨[], [true], [], []⟩).store.lookup (userKey 7) =
      some ⟨str "\x7b\"id\":7,\"name\":\"Hot User\"\x7d", some 600⟩ := by
  decide

/-- C5, as stated, fails: for a user whose name is not valid UTF-8 (the single
byte FF), with every command going through, the record is stored with U+FFFD
in place of the bad byte and the flush prints a user with another name. -/
theorem buffer_then_flush_counterexample :
    InInt64 2 ∧ World.empty.healthy ∧
    (flushWriteBehind (writeBehindBuffer ⟨2, [0xFF]⟩ World.empty)).2 =
      [(bufferKey 2, ⟨2, [0xEF, 0xBF, 0xBD]⟩)] ∧
    (bufferKey 2, (⟨2, [0xFF]⟩ : User)) ∉
      (flushWriteBehind (writeBehindBuffer ⟨2, [0xFF]⟩ World.empty)).2 := by
  decide

/-- C5, amended. Buffer then flush: for a user `e` whose name is valid UTF-8,
with the cache commands going through and whatever the order in which `KEYS`
enumerates, after `writeBehindBuffer(e)` and then `flushWriteBehind()` the
record printed for the key `buffer:user:<e.ID>` is `e` (and no other record is
printed for that key), and no entry is left under that key. A flush over a
cache without any `buffer:user:` key prints nothing, issues the `KEYS`
command only and leaves the key space as it is. In detail: the write leaves
the encoding of `e` under the key with five minutes to live; the flush prints
one record for each key of the enumeration, in its order; after the `SET` and
the `KEYS` it issues for each of those keys the `GET` and then the `DEL`; and
a key that does not match `buffer:user:*` holds after the flush what it held
before the write. -/
theorem buffer_then_flush (e : User) (w : World) (hid : InInt64 e.ID)
    (hname : validUTF8 e.Name = true) (hok : w.healthy) :
    ((bufferKey e.ID, e) ∈ (flushWriteBehind (writeBehindBuffer e w)).2 ∧
      (∀ u, (bufferKey e.ID, u) ∈ (flushWriteBehind (writeBehindBuffer e w)).2 → u = e) ∧
      (flushWriteBehind (writeBehindBuffer e w)).1.store.lookup (bufferKey e.ID) = none) ∧
    (∀ v : World, v.store.keys (str "buffer:user:*") = [] →
      (flushWriteBehind v).2 = [] ∧ (flushWriteBehind v).1.store = v.store ∧
      (flushWriteBehind v).1.trace = v.trace ++ [Cmd.keys (str "buffer:user:*")]) ∧
    ((writeBehindBuffer e w).store.lookup (bufferKey e.ID) = some ⟨jsonMarshal e, some 300⟩ ∧
      (flushWriteBehind (writeBehindBuffer e w)).2.map Prod.fst =
        shuffle ((writeBehindBuffer e w).scans.headD [])
          ((writeBehindBuffer e w).store.keys (str "buffer:user:*")) ∧
      (flushWriteBehind (writeBehindBuffer e w)).1.trace =
        w.trace ++ Cmd.set (bufferKey e.ID) (jsonMarshal e) (5 * minute) ::
          Cmd.keys (str "buffer:user:*") ::
            flushCmds (shuffle ((writeBehindBuffer e w).scans.headD [])
              ((writeBehindBuffer e w).store.keys (str "buffer:user:*"))) ∧
      (∀ k, globMatch (str "buffer:user:*") k = false →
        (flushWriteBehind (writeBehindBuffer e w)).1.store.lookup k = w.store.lookup k)) := by
  have h1 := writeBehindBuffer_ok e w (healthy_nextFails w hok)
  have hok1 := writeBehindBuffer_healthy e w hok
  have hk : (writeBehindBuffer e w).store.lookup (bufferKey e.ID) =
      some ⟨jsonMarshal e, some 300⟩ := by
    rw [h1]; exact lookup_insert_self _ _ _
  have hmem : bufferKey e.ID ∈ (writeBehindBuffer e w).store.keys (str "buffer:user:*") := by
    rw [mem_keys, hk]
    exact ⟨by simp, bufferKey_matches _⟩
  have hlog := flushWriteBehind_log _ hok1
  have hrt := jsonUnmarshal_jsonMarshal e hid hname
  refine ⟨⟨?_, ?_, flushWriteBehind_erased _ hok1 _ hmem⟩, ?_,
    hk, flushWriteBehind_keys _ hok1, ?_, ?_⟩
  · rw [hlog, List.mem_map]
    refine ⟨bufferKey e.ID, (mem_shuffle _ _ _).2 hmem, ?_⟩
    simp only [hk, Option.map_some', Option.getD_some, hrt]
  · intro u hu
    rw [hlog, List.mem_map] at hu
    obtain ⟨k, _, hku⟩ := hu
    have hk1 : k = bufferKey e.ID := (Prod.mk.inj hku).1
    have hu1 := (Prod.mk.inj hku).2
    rw [hk1, hk] at hu1
    simp only [Option.map_some', Option.getD_some, hrt] at hu1
    exact hu1.symm
  · intro v hv
    rw [flushWriteBehind_empty v hv]
    exact ⟨rfl, rfl, rfl⟩
  · rw [flushWriteBehind_trace _ hok1]
    have ht : (writeBehindBuffer e w).trace =
        w.trace ++ [Cmd.set (bufferKey e.ID) (jsonMarshal e) (5 * minute)] := by
      rw [h1]; rfl
    rw [ht]
    simp
  · intro k hkm
    rw [flushWriteBehind_lookup_nonmatching _ k hkm]
    apply writeBehindBuffer_lookup_ne
    intro heq
    rw [heq, bufferKey_matches] at hkm
    exact absurd hkm (by decide)

/-- Witness of the amended C5: user 2 is buffered next to an older record of
user 9, and `KEYS` enumerates the older record first. -/
theorem buffer_then_flush_witness :
    InInt64 2 ∧ validUTF8 (str "Zoë €😀") = true ∧
      World.healthy ⟨[(bufferKey 9, ⟨jsonMarshal ⟨9, str "Old"⟩, some 100⟩)], [], [[1]], []⟩ ∧
      (flushWriteBehind (writeBehindBuffer ⟨2, str "Zoë €😀"⟩
        ⟨[(bufferKey 9, ⟨jsonMarshal ⟨9, str "Old"⟩, some 100⟩)], [], [[1]], []⟩)).2 =
          [(bufferKey 9, ⟨9, str "Old"⟩), (bufferKey 2, ⟨2, str "Zoë €😀"⟩)] ∧
      (bufferKey 2, ⟨2, str "Zoë €😀"⟩) ∈
        (flushWriteBehind (writeBehindBuffer ⟨2, str "Zoë €😀"⟩
          ⟨[(bufferKey 9, ⟨jsonMarshal ⟨9, str "Old"⟩, some 100⟩)], [], [[1]], []⟩)).2 ∧
      World.empty.store.keys (str "buffer:user:*") = [] ∧ (flushWriteBehind World.empty).2 = [] :=
  ⟨by decide, by decide, by decide, by decide,
    (buffer_then_flush ⟨2, str "Zoë €😀"⟩
      ⟨[(bufferKey 9, ⟨jsonMarshal ⟨9, str "Old"⟩, some 100⟩)], [], [[1]], []⟩
      (by decide) (by decide) (by decide)).1.1,
    by decide,
    ((buffer_then_flush ⟨2, str "Zoë €😀"⟩
      ⟨[(bufferKey 9, ⟨jsonMarshal ⟨9, str "Old"⟩, some 100⟩)], [], [[1]], []⟩
      (by decide) (by decide) (by decide)).2.1 World.empty (by decide)).1⟩

/-- C6, as stated, fails in two ways. When the second `SET` does not go
through, the buffer still holds the first name, and the flush prints the first
name. And with every command going through, a second name that is not valid
UTF-8 (the single byte FF) is stored with U+FFFD in its place, so that the
value decodes to another name. -/
theorem buffer_last_write_counterexample :
    ((writeBehindBuffer ⟨2, str "new"⟩ (writeBehindBuffer ⟨2, str "old"⟩
        ⟨[], [false, true], [], []⟩)).store.lookup (bufferKey 2) =
          some ⟨jsonMarshal ⟨2, str "old"⟩, some 300⟩ ∧
      (flushWriteBehind (writeBehindBuffer ⟨2, str "new"⟩ (writeBehindBuffer ⟨2, str "old"⟩
        ⟨[], [false, true], [], []⟩))).2 = [(bufferKey 2, ⟨2, str "old"⟩)]) ∧
    ((jsonUnmarshal (jsonMarshal ⟨2, [0xFF]⟩)).1 = ⟨2, [0xEF, 0xBF, 0xBD]⟩ ∧
      (writeBehindBuffer ⟨2, [0xFF]⟩ (writeBehindBuffer ⟨2, str "old"⟩
        World.empty)).store.lookup (bufferKey 2) = some ⟨jsonMarshal ⟨2, [0xFF]⟩, some 300⟩ ∧
      (flushWriteBehind (writeBehindBuffer ⟨2, [0xFF]⟩ (writeBehindBuffer ⟨2, str "old"⟩
        World.empty))).2 = [(bufferKey 2, ⟨2, [0xEF, 0xBF, 0xBD]⟩)]) := by
  decide

/-- C6, amended. With the cache commands going through, for a second name
`n2` that is valid UTF-8 and whatever the order in which `KEYS` enumerates:
after `writeBehindBuffer({id, n1})` and `writeBehindBuffer({id, n2})` every
enumeration of the keys holds the buffer key of `id` exactly once, its value is the
encoding of `{id, n2}` and decodes to it, and a flush that follows prints
exactly one record for that key, the one carrying `n2`. In detail: the store
holds one binding for the key, the second write with five minutes to live; the
two calls issue one `SET` each, on the same key; every other key holds what it
held before; and the flush leaves no entry under the key. -/
theorem buffer_last_write_wins (id : Int) (n1 n2 : Bytes) (w : World)
    (hid : InInt64 id) (hname : validUTF8 n2 = true) (hok : w.healthy) :
    (∀ is, (shuffle is ((writeBehindBuffer ⟨id, n2⟩ (writeBehindBuffer ⟨id, n1⟩ w)).store.keys
        (str "buffer:user:*"))).filter (fun k => decide (k = bufferKey id)) = [bufferKey id]) ∧
    (writeBehindBuffer ⟨id, n2⟩ (writeBehindBuffer ⟨id, n1⟩ w)).store.lookup (bufferKey id) =
      some ⟨jsonMarshal ⟨id, n2⟩, some 300⟩ ∧
    jsonUnmarshal (jsonMarshal ⟨id, n2⟩) = (⟨id, n2⟩, none) ∧
    (flushWriteBehind (writeBehindBuffer ⟨id, n2⟩ (writeBehindBuffer ⟨id, n1⟩ w))).2.filter
        (fun p => p.1 = bufferKey id) = [(bufferKey id, ⟨id, n2⟩)] ∧
    ((writeBehindBuffer ⟨id, n2⟩ (writeBehindBuffer ⟨id, n1⟩ w)).store.filter
        (fun p => decide (p.1 = bufferKey id)) =
          [(bufferKey id, ⟨jsonMarshal ⟨id, n2⟩, some 300⟩)] ∧
      (writeBehindBuffer ⟨id, n2⟩ (writeBehindBuffer ⟨id, n1⟩ w)).trace =
        w.trace ++ [Cmd.set (bufferKey id) (jsonMarshal ⟨id, n1⟩) (5 * minute),
          Cmd.set (bufferKey id) (jsonMarshal ⟨id, n2⟩) (5 * minute)] ∧
      (∀ k, k ≠ bufferKey id →
        (writeBehindBuffer ⟨id, n2⟩ (writeBehindBuffer ⟨id, n1⟩ w)).store.lookup k =
          w.store.lookup k) ∧
      (flushWriteBehind (writeBehindBuffer ⟨id, n2⟩ (writeBehindBuffer ⟨id, n1⟩ w))).1.store.lookup
        (bufferKey id) = none) := by
  have hokA := writeBehindBuffer_healthy ⟨id, n1⟩ w hok
  have h2 := writeBehindBuffer_ok ⟨id, n2⟩ _ (healthy_nextFails _ hokA)
  have hokB := writeBehindBuffer_healthy ⟨id, n2⟩ _ hokA
  have hk : (writeBehindBuffer ⟨id, n2⟩ (writeBehindBuffer ⟨id, n1⟩ w)).store.lookup
      (bufferKey id) = some ⟨jsonMarshal ⟨id, n2⟩, some 300⟩ := by
    rw [h2]; exact lookup_insert_self _ _ _
  have hmem : bufferKey id ∈
      (writeBehindBuffer ⟨id, n2⟩ (writeBehindBuffer ⟨id, n1⟩ w)).store.keys
        (str "buffer:user:*") := by
    rw [mem_keys, hk]
    exact ⟨by simp, bufferKey_matches _⟩
  have hrt := jsonUnmarshal_jsonMarshal ⟨id, n2⟩ hid hname
  have h1 := writeBehindBuffer_ok ⟨id, n1⟩ w (healthy_nextFails w hok)
  refine ⟨?_, hk, hrt, ?_, ?_, ?_, ?_, flushWriteBehind_erased _ hokB _ hmem⟩
  · intro is
    exact filter_eq_singleton _ _ (nodup_shuffle is _ (nodup_keys _ _))
      ((mem_shuffle is _ _).2 hmem)
  rotate_left
  · rw [h2]; exact filter_insert_self _ _ _
  · rw [h2, h1]; simp [World.issue]
  · intro k hne
    rw [writeBehindBuffer_lookup_ne ⟨id, n2⟩ _ k hne, writeBehindBuffer_lookup_ne ⟨id, n1⟩ _ k hne]
  rw [flushWriteBehind_log _ hokB, List.filter_map]
  have hf := filter_eq_singleton _ (bufferKey id) (nodup_shuffle
    ((writeBehindBuffer ⟨id, n2⟩ (writeBehindBuffer ⟨id, n1⟩ w)).scans.headD []) _
    (nodup_keys (str "buffer:user:*")
      (writeBehindBuffer ⟨id, n2⟩ (writeBehindBuffer ⟨id, n1⟩ w)).store))
    ((mem_shuffle _ _ _).2 hmem)
  have hfun : ((fun p : Bytes × User => decide (p.1 = bufferKey id)) ∘
      fun k => (k, (jsonUnmarshal ((((writeBehindBuffer ⟨id, n2⟩
        (writeBehindBuffer ⟨id, n1⟩ w)).store.lookup k).map Entry.value).getD [])).1))
      = fun k => decide (k = bufferKey id) := rfl
  rw [hfun, hf]
  simp only [List.map_cons, List.map_nil, hk, Option.map_some', Option.getD_some, hrt]

/-- Witness of the amended C6: two writes for id 2 next to an older record of
user 9, which `KEYS` enumerates first. -/
theorem buffer_last_write_wins_witness :
    InInt64 2 ∧ validUTF8 (str "new €") = true ∧
      (flushWriteBehind (writeBehindBuffer ⟨2, str "new €"⟩ (writeBehindBuffer ⟨2, str "old"⟩
        ⟨[(bufferKey 9, ⟨jsonMarshal ⟨9, str "Old"⟩, some 100⟩)], [], [[1]], []⟩))).2 =
          [(bufferKey 9, ⟨9, str "Old"⟩), (bufferKey 2, ⟨2, str "new €"⟩)] ∧
      (flushWriteBehind (writeBehindBuffer ⟨2, str "new €"⟩ (writeBehindBuffer ⟨2, str "old"⟩
        ⟨[(bufferKey 9, ⟨jsonMarshal ⟨9, str "Old"⟩, some 100⟩)], [], [[1]], []⟩))).2.filter
          (fun p => p.1 = bufferKey 2) = [(bufferKey 2, ⟨2, str "new €"⟩)] :=
  ⟨by decide, by decide, by decide,
    (buffer_last_write_wins 2 (str "old") (str "new €")
      ⟨[(bufferKey 9, ⟨jsonMarshal ⟨9, str "Old"⟩, some 100⟩)], [], [[1]], []⟩
      (by decide) (by decide) (by decide)).2.2.2.1⟩

/-- C7, as stated, fails in three ways. When the `TTL` query does not go
through, an entry with 100 s left is rewritten; when the query reports 10 s
and the `SET` does not go through, the entry keeps its 10 s; and a lifetime
of 9223372037 s, multiplied by `time.Second`, overflows the `int64` duration
to a negative value, so that the entry is rewritten. -/
theorem refresh_threshold_counterexample :
    (refreshAheadHotKeys [1]
        ⟨[(str "user:1", ⟨jsonMarshal ⟨1, str "Ann"⟩, some 100⟩)], [true], [], []⟩).store.lookup
      (userKey 1) = some ⟨jsonMarshal ⟨1, str "Hot User"⟩, some 600⟩ ∧
    (refreshAheadHotKeys [1]
        ⟨[(str "user:1", ⟨jsonMarshal ⟨1, str "Ann"⟩, some 10⟩)], [false, true], [], []⟩).store.lookup
      (userKey 1) = some ⟨jsonMarshal ⟨1, str "Ann"⟩, some 10⟩ ∧
    (refreshAheadHotKeys [1]
        ⟨[(str "user:1", ⟨jsonMarshal ⟨1, str "Ann"⟩, some 9223372037⟩)], [], [], []⟩).store.lookup
      (userKey 1) = some ⟨jsonMarshal ⟨1, str "Hot User"⟩, some 600⟩ := by
  decide

/-- C7, amended. Refresh-ahead threshold rule: with the cache commands
going through, for every id in `hotIDs` whose key exists with `t` seconds
left, the entry is untouched when `30 ≤ t` and `t` seconds fit a duration
(`t ≤ 9223372036`), and has the full 600 s after the call when `t < 30`.
Whether or not commands go through, the key of an id that is not in
`hotIDs` is never changed. -/
theorem refresh_threshold_rule (hotIDs : List Int) (w : World) :
    (w.healthy → ∀ id ∈ hotIDs, ∀ (e : Entry) (t : Nat),
      w.store.lookup (userKey id) = some e → e.ttl = some t →
        (30 ≤ t → t ≤ 9223372036 →
          (refreshAheadHotKeys hotIDs w).store.lookup (userKey id) = some e) ∧
        (t < 30 → ∃ e1, (refreshAheadHotKeys hotIDs w).store.lookup (userKey id) = some e1 ∧
          e1.ttl = some 600)) ∧
    (∀ j, j ∉ hotIDs →
      (refreshAheadHotKeys hotIDs w).store.lookup (userKey j) = w.store.lookup (userKey j)) := by
  refine ⟨?_, ?_⟩
  · intro hok id hin e t hk ht
    refine ⟨fun hge hb => refresh_fresh hotIDs w id e t hok hk ht hge hb, fun hlt => ?_⟩
    exact ⟨_, refresh_stale hotIDs w id e t hok hin hk ht hlt, rfl⟩
  · intro j hj
    apply refresh_lookup_notin
    intro id hin e
    exact hj (userKey_injective e ▸ hin)

/-- Witness of the amended C7: id 1 with 100 s left stays, id 2 with 10 s
left is renewed, id 3 is not hot. -/
theorem refresh_threshold_rule_witness :
    (refreshAheadHotKeys [1, 2]
        ⟨[(str "user:1", ⟨str "a", some 100⟩), (str "user:2", ⟨str "b", some 10⟩)], [], [], []⟩).store.lookup
      (userKey 1) = some ⟨str "a", some 100⟩ ∧
    (∃ e1, (refreshAheadHotKeys [1, 2]
        ⟨[(str "user:1", ⟨str "a", some 100⟩), (str "user:2", ⟨str "b", some 10⟩)], [], [], []⟩).store.lookup
      (userKey 2) = some e1 ∧ e1.ttl = some 600) ∧
    (refreshAheadHotKeys [1, 2]
        ⟨[(str "user:1", ⟨str "a", some 100⟩), (str "user:2", ⟨str "b", some 10⟩)], [], [], []⟩).store.lookup
      (userKey 3) = none :=
  ⟨((refresh_threshold_rule [1, 2] ⟨[(str "user:1", ⟨str "a", some 100⟩), (str "user:2", ⟨str "b", some 10⟩)],
        [], [], []⟩).1 (by decide) 1 (by decide) ⟨str "a", some 100⟩ 100 (by decide) rfl).1
        (by decide) (by decide),
   ((refresh_threshold_rule [1, 2] ⟨[(str "user:1", ⟨str "a", some 100⟩), (str "user:2", ⟨str "b", some 10⟩)],
        [], [], []⟩).1 (by decide) 2 (by decide) ⟨str "b", some 10⟩ 10 (by decide) rfl).2 (by decide),
   (refresh_threshold_rule [1, 2] ⟨[(str "user:1", ⟨str "a", some 100⟩), (str "user:2", ⟨str "b", some 10⟩)],
        [], [], []⟩).2 3 (by decide)⟩

/-- C8. The buffer key space does not collide with the live key space: a live
key never equals a buffer key, both key mappings are injective, and no live
key matches the flush pattern. Hence the write-behind functions leave every
live entry as it is, and the cache-aside, write-through and refresh-ahead
functions leave every buffer entry as it is (under a key `buffer:user:<j>`,
and under any key that matches the flush pattern). -/
theorem keyspaces_do_not_collide :
    (∀ i j : Int, userKey i ≠ bufferKey j) ∧
    Function.Injective userKey ∧ Function.Injective bufferKey ∧
    (∀ i : Int, globMatch (str "buffer:user:*") (userKey i) = false) ∧
    (∀ (u : User) (w : World) (i : Int),
      (writeBehindBuffer u w).store.lookup (userKey i) = w.store.lookup (userKey i)) ∧
    (∀ (w : World) (i : Int),
      (flushWriteBehind w).1.store.lookup (userKey i) = w.store.lookup (userKey i)) ∧
    (∀ (id : Int) (w : World) (j : Int),
      (getUserByID id w).1.store.lookup (bufferKey j) = w.store.lookup (bufferKey j)) ∧
    (∀ (id : Int) (name : Bytes) (w : World) (j : Int),
      (updateUserWriteThrough id name w).1.store.lookup (bufferKey j) =
        w.store.lookup (bufferKey j)) ∧
    (∀ (hotIDs : List Int) (w : World) (j : Int),
      (refreshAheadHotKeys hotIDs w).store.lookup (bufferKey j) = w.store.lookup (bufferKey j)) ∧
    (∀ (k : Bytes), globMatch (str "buffer:user:*") k = true →
      ∀ (id : Int) (name : Bytes) (hotIDs : List Int) (w : World),
        (getUserByID id w).1.store.lookup k = w.store.lookup k ∧
        (updateUserWriteThrough id name w).1.store.lookup k = w.store.lookup k ∧
        (refreshAheadHotKeys hotIDs w).store.lookup k = w.store.lookup k) := by
  refine ⟨userKey_ne_bufferKey, userKey_injective, bufferKey_injective, userKey_not_matches,
    ?_, ?_, ?_, ?_, ?_, ?_⟩
  · intro u w i
    exact writeBehindBuffer_lookup_ne u w _ (userKey_ne_bufferKey i u.ID)
  · intro w i
    exact flushWriteBehind_lookup_nonmatching w _ (userKey_not_matches i)
  · intro id w j
    exact getUserByID_lookup_ne id w _ (fun e => userKey_ne_bufferKey id j e.symm)
  · intro id name w j
    exact updateUserWriteThrough_lookup_ne id name w _
      (fun e => userKey_ne_bufferKey id j e.symm)
  · intro hotIDs w j
    exact refresh_lookup_notin hotIDs w _ (fun id _ e => userKey_ne_bufferKey id j e.symm)
  · intro k hk id name hotIDs w
    exact ⟨getUserByID_lookup_ne id w k (ne_userKey_of_matches k id hk),
      updateUserWriteThrough_lookup_ne id name w k (ne_userKey_of_matches k id hk),
      refresh_lookup_notin hotIDs w k (fun i _ => ne_userKey_of_matches k i hk)⟩

/-- Witness of C8: a buffer record survives a read, an update and a refresh
of the same id. -/
theorem keyspaces_do_not_collide_witness :
    globMatch (str "buffer:user:*") (str "buffer:user:5") = true ∧
    (getUserByID 5 ⟨[(str "buffer:user:5", ⟨str "x", some 300⟩)], [], [], []⟩).1.store.lookup
      (str "buffer:user:5") = some ⟨str "x", some 300⟩ :=
  ⟨by decide,
   ((keyspaces_do_not_collide.2.2.2.2.2.2.2.2.2 (str "buffer:user:5") (by decide)) 5 (str "n") [5]
      ⟨[(str "buffer:user:5", ⟨str "x", some 300⟩)], [], [], []⟩).1⟩

/-- C9. Cache-aside never fails because of the cache, and treats a corrupt
entry like a miss: `getUserByID` returns a nil error in every world (whatever
is stored and whichever commands fail); and when the bytes stored under
`user:<id>` do not decode, the call returns the same user and issues the same
commands (a `GET`, then the `SET` of the fetched user with 10 minutes) as on
the world where the key is absent, and when that `SET` goes through both
runs end in the same key space, with the fetched user under the key for 600 s. -/
theorem cacheAside_corrupt_is_miss (id : Int) (w : World) :
    (getUserByID id w).2.2 = none ∧
    (∀ e : Entry, w.store.lookup (userKey id) = some e → (jsonUnmarshal e.value).2 ≠ none →
      (getUserByID id w).2.1 =
        (getUserByID id { w with store := w.store.erase (userKey id) }).2.1 ∧
      (getUserByID id w).1.trace =
        (getUserByID id { w with store := w.store.erase (userKey id) }).1.trace ∧
      (getUserByID id w).1.trace = w.trace ++ [Cmd.get (userKey id),
        Cmd.set (userKey id) (jsonMarshal ⟨id, str "John Doe"⟩) (10 * minute)] ∧
      ((w.issue (Cmd.get (userKey id))).nextFails = false →
        (getUserByID id w).1.store =
          (getUserByID id { w with store := w.store.erase (userKey id) }).1.store ∧
        (getUserByID id w).1.store.lookup (userKey id) =
          some ⟨jsonMarshal ⟨id, str "John Doe"⟩, some 600⟩)) := by
  refine ⟨getUserByID_error id w, ?_⟩
  intro e hk hd
  have h1 := getUserByID_corrupt id w e hk hd
  have h0 := getUserByID_miss id { w with store := w.store.erase (userKey id) }
    (Or.inl (rdbGet_absent _ _ (lookup_erase_self _ _)))
  refine ⟨by rw [h1, h0], ?_, ?_, ?_⟩
  · rw [h1, h0]
    simp only [rdbSet_trace]; rfl
  · rw [h1]
    simp only [rdbSet_trace, World.issue, List.append_assoc, List.singleton_append]
  · intro hf
    have hf0 : (World.issue (Cmd.get (userKey id))
        { w with store := w.store.erase (userKey id) }).nextFails = false := hf
    rw [h1, h0, rdbSet_ok _ _ _ _ hf, rdbSet_ok _ _ _ _ hf0, expiryOf_ten_minutes]
    refine ⟨?_, lookup_insert_self _ _ _⟩
    exact (insert_erase_self _ _ _).symm

/-- Witness of C9: bytes that are not JSON under `user:1`. -/
theorem cacheAside_corrupt_is_miss_witness :
    (jsonUnmarshal (str "not json")).2 ≠ none ∧
    (getUserByID 1 ⟨[(str "user:1", ⟨str "not json", some 50⟩)], [], [], []⟩).2.1 =
      (getUserByID 1 ⟨Store.erase (userKey 1) [(str "user:1", ⟨str "not json", some 50⟩)], [], [], []⟩).2.1 :=
  ⟨by decide,
   ((cacheAside_corrupt_is_miss 1 ⟨[(str "user:1", ⟨str "not json", some 50⟩)], [], [], []⟩).2
      ⟨str "not json", some 50⟩ (by decide) (by decide)).1⟩

/-- C10. Refresh-ahead replaces the cached value with a placeholder. After
`refreshAheadHotKeys`, the entry of a hot id is either what it was or the
encoding of `{id, "Hot User"}` with 600 s; that encoding decodes to
`{id, "Hot User"}`; with the cache commands going through, an entry with
less than 30 s left is rewritten to it whatever it held. So a write-through
of the name "Updated Name", 580 s of waiting, a refresh and a read return
the name "Hot User". -/
theorem refresh_writes_placeholder (hotIDs : List Int) (w : World) :
    (∀ id ∈ hotIDs,
      (refreshAheadHotKeys hotIDs w).store.lookup (userKey id) = w.store.lookup (userKey id) ∨
      (refreshAheadHotKeys hotIDs w).store.lookup (userKey id) =
        some ⟨jsonMarshal ⟨id, str "Hot User"⟩, some 600⟩) ∧
    (∀ id : Int, InInt64 id →
      jsonUnmarshal (jsonMarshal ⟨id, str "Hot User"⟩) = (⟨id, str "Hot User"⟩, none)) ∧
    (w.healthy → ∀ id ∈ hotIDs, ∀ (e : Entry) (t : Nat),
      w.store.lookup (userKey id) = some e → e.ttl = some t → t < 30 →
        (refreshAheadHotKeys hotIDs w).store.lookup (userKey id) =
          some ⟨jsonMarshal ⟨id, str "Hot User"⟩, some 600⟩) ∧
    ((updateUserWriteThrough 1 (str "Updated Name") World.empty).2 = none ∧
      ((updateUserWriteThrough 1 (str "Updated Name") World.empty).1.elapse 580).store.lookup
        (userKey 1) = some ⟨jsonMarshal ⟨1, str "Updated Name"⟩, some 20⟩ ∧
      (getUserByID 1 (refreshAheadHotKeys [1]
        ((updateUserWriteThrough 1 (str "Updated Name") World.empty).1.elapse 580))).2.1 =
          ⟨1, str "Hot User"⟩) := by
  refine ⟨?_, ?_, ?_, by decide⟩
  · intro id _
    rcases refresh_lookup_cases hotIDs w (userKey id) with h | ⟨j, _, hj, hv⟩
    · exact Or.inl h
    · rw [← userKey_injective hj] at hv
      exact Or.inr hv
  · intro id hid
    exact jsonUnmarshal_jsonMarshal ⟨id, str "Hot User"⟩ hid
      (show validUTF8 (str "Hot User") = true by decide)
  · intro hok id hin e t hk ht hlt
    exact refresh_stale hotIDs w id e t hok hin hk ht hlt

/-- Witness of C10: the entry of id 1 holds the name "Ann" with 20 s left. -/
theorem refresh_writes_placeholder_witness :
    InInt64 1 ∧
    (refreshAheadHotKeys [1]
        ⟨[(str "user:1", ⟨str "\x7b\"id\":1,\"name\":\"Ann\"\x7d", some 20⟩)], [], [], []⟩).store.lookup
      (userKey 1) = some ⟨jsonMarshal ⟨1, str "Hot User"⟩, some 600⟩ ∧
    jsonUnmarshal (jsonMarshal ⟨1, str "Hot User"⟩) = (⟨1, str "Hot User"⟩, none) :=
  ⟨by decide,
   (refresh_writes_placeholder [1]
      ⟨[(str "user:1", ⟨str "\x7b\"id\":1,\"name\":\"Ann\"\x7d", some 20⟩)], [], [], []⟩).2.2.1 (by decide) 1
      (by decide) ⟨str "\x7b\"id\":1,\"name\":\"Ann\"\x7d", some 20⟩ 20 (by decide) rfl (by decide),
   (refresh_writes_placeholder [1]
      ⟨[(str "user:1", ⟨str "\x7b\"id\":1,\"name\":\"Ann\"\x7d", some 20⟩)], [], [], []⟩).2.1 1 (by decide)⟩

end CacheDemo
